import Mathlib

/-!
Verification of the `cerc-io/ipld-eth-statedb` trie engine, node cache and
content addressing layer against its specification.

The Go sources are shallowly embedded: byte strings become `List Nat`,
hashes (`common.Hash`) become byte lists with the zero hash as 32 zero
bytes, maps become association lists, and the external libraries
(go-multihash, go-cid, keccak, RLP decoding) are modelled by their
documented byte formats or abstracted as parameters.
-/

set_option maxHeartbeats 1000000

namespace IpldEthStatedb

/-- Byte strings (`[]byte`): each element is intended to lie below 256;
none of the modelled code depends on that bound. -/
abbrev Bytes := List Nat

namespace Cid

/-- Structural worker for the varint encoder: `fuel ≥ n` always suffices,
and for `n < 128` the fuel value is irrelevant. -/
def putUvarintAux : Nat → Nat → Bytes
  | 0, n => [n % 128]
  | fuel + 1, n =>
    if n < 128 then [n] else (n % 128 + 128) :: putUvarintAux fuel (n / 128)

/-- Unsigned LEB128 varint, as written by `binary.PutUvarint` and used by the
go-multihash and go-cid libraries for all integer fields. -/
def putUvarint (n : Nat) : Bytes := putUvarintAux n n

theorem putUvarintAux_fuel_irrelevant :
    ∀ n f₁ f₂, n ≤ f₁ → n ≤ f₂ → putUvarintAux f₁ n = putUvarintAux f₂ n := by
  intro n
  induction n using Nat.strong_induction_on with
  | _ n ih =>
    intro f₁ f₂ h₁ h₂
    by_cases hn : n < 128
    · cases f₁ with
      | zero =>
        cases f₂ with
        | zero => rfl
        | succ f₂ =>
          simp [putUvarintAux, hn, Nat.mod_eq_of_lt hn]
      | succ f₁ =>
        cases f₂ with
        | zero => simp [putUvarintAux, hn, Nat.mod_eq_of_lt hn]
        | succ f₂ => simp [putUvarintAux, hn]
    · have hn1 : 1 ≤ n := by omega
      cases f₁ with
      | zero => omega
      | succ f₁ =>
        cases f₂ with
        | zero => omega
        | succ f₂ =>
          simp only [putUvarintAux, if_neg hn]
          have hd : n / 128 < n := Nat.div_lt_self (by omega) (by omega)
          have hle : n / 128 ≤ n - 1 := by omega
          rw [ih (n / 128) hd f₁ f₂ (by omega) (by omega)]

/-- The multihash function code for KECCAK-256 (`multihash.KECCAK_256`). -/
def KECCAK256 : Nat := 0x1b

/-- External go-multihash library, `multihash.Encode(buf, code)`:
`uvarint(code) ++ uvarint(len(buf)) ++ buf`.  Its error return is
unreachable for the calls made by this repository, so it is modelled total. -/
def multihashEncode (h : Bytes) (code : Nat) : Bytes :=
  putUvarint code ++ putUvarint h.length ++ h

/-- External go-cid library, `cid.NewCidV1(codec, mhash)`, represented by the
binary form that `Cid.Bytes()` returns: `uvarint(1) ++ uvarint(codec) ++ mhash`. -/
def newCidV1 (codec : Nat) (mhash : Bytes) : Bytes :=
  putUvarint 1 ++ putUvarint codec ++ mhash

/-- `internal/util.go` `Keccak256ToCid(codec, h)`: encode the digest as a
KECCAK-256 multihash and wrap it in a version-1 CID tagged with `codec`.
The only error path (from `multihash.Encode`) is unreachable, so the
function is modelled total, returning the CID's byte representation. -/
def Keccak256ToCid (codec : Nat) (h : Bytes) : Bytes :=
  newCidV1 codec (multihashEncode h KECCAK256)

theorem putUvarint_head_lt (n : Nat) (h : n < 128) : putUvarint n = [n] := by
  unfold putUvarint
  cases n with
  | zero => rfl
  | succ m => simp [putUvarintAux, h]

theorem putUvarint_head_ge (n : Nat) (h : ¬ n < 128) :
    putUvarint n = (n % 128 + 128) :: putUvarint (n / 128) := by
  unfold putUvarint
  cases hn : n with
  | zero => omega
  | succ m =>
    simp only [putUvarintAux, if_neg (show ¬ m + 1 < 128 by omega)]
    rw [putUvarintAux_fuel_irrelevant ((m + 1) / 128) m ((m + 1) / 128)
      (by omega) (le_refl _)]

/-- Varint encodings are uniquely decodable even when followed by arbitrary
suffixes: equal concatenations force equal values and equal suffixes. -/
theorem putUvarint_append_inj :
    ∀ a b : Nat, ∀ s t : Bytes,
      putUvarint a ++ s = putUvarint b ++ t → a = b ∧ s = t := by
  intro a
  induction a using Nat.strong_induction_on with
  | _ a ih =>
    intro b s t heq
    by_cases ha : a < 128
    · by_cases hb : b < 128
      · rw [putUvarint_head_lt a ha, putUvarint_head_lt b hb] at heq
        simp at heq
        exact ⟨heq.1, heq.2⟩
      · rw [putUvarint_head_lt a ha, putUvarint_head_ge b hb] at heq
        simp at heq
        omega
    · by_cases hb : b < 128
      · rw [putUvarint_head_ge a ha, putUvarint_head_lt b hb] at heq
        simp at heq
        omega
      · rw [putUvarint_head_ge a ha, putUvarint_head_ge b hb] at heq
        simp at heq
        obtain ⟨hmod, hrest⟩ := heq
        have hlt : a / 128 < a := Nat.div_lt_self (by omega) (by omega)
        obtain ⟨hdiv, hst⟩ := ih (a / 128) hlt (b / 128) s t hrest
        constructor
        · omega
        · exact hst

/-- C9: the content-identifier derivation `Keccak256ToCid` is a pure
deterministic function — it encodes the digest as a KECCAK-256 multihash
wrapped in a version-1 CID tagged with the codec, so two calls on the same
`(codec, hash)` pair yield the same identifier — and identifiers derived
from distinct codecs over the same digest are distinct. -/
theorem keccak256ToCid_deterministic_codec_injective :
    (∀ c h, Keccak256ToCid c h =
        newCidV1 c (multihashEncode h KECCAK256)) ∧
    (∀ c₁ c₂ : Nat, ∀ h : Bytes, c₁ ≠ c₂ →
        Keccak256ToCid c₁ h ≠ Keccak256ToCid c₂ h) := by
  constructor
  · intro c h
    rfl
  · intro c₁ c₂ h hne hcontra
    unfold Keccak256ToCid newCidV1 at hcontra
    rw [List.append_assoc, List.append_assoc] at hcontra
    have h1 := putUvarint_append_inj 1 1 _ _ hcontra
    have h2 := putUvarint_append_inj c₁ c₂ _ _ h1.2
    exact hne h2.1

/-- Witness for C9: the state-trie codec (0x96) and the storage-trie codec
(0x98) give different identifiers for one concrete digest. -/
theorem keccak256ToCid_deterministic_codec_injective_witness :
    Keccak256ToCid 0x96 [1, 2, 3] ≠ Keccak256ToCid 0x98 [1, 2, 3] :=
  keccak256ToCid_deterministic_codec_injective.2 0x96 0x98 [1, 2, 3] (by decide)

end Cid

namespace TrieDB

/-- Node hashes (`common.Hash`); the zero value is 32 zero bytes. -/
abbrev H := List Nat

/-- `common.Hash{}` — the synthetic meta-root key. -/
def zeroH : H := List.replicate 32 0

/-- Generic association-list lookup used to model Go maps. -/
def alook {α : Type} : List (H × α) → H → Option α
  | [], _ => none
  | (k, v) :: l, x => if k = x then some v else alook l x

/-- Update the value at a key, leaving the list unchanged if the key is
absent (Go map writes through an existing pointer). -/
def aupd {α : Type} : List (H × α) → H → (α → α) → List (H × α)
  | [], _, _ => []
  | (a, v) :: l, k, f =>
      if a = k then (a, f v) :: aupd l k f else (a, v) :: aupd l k f

/-- Delete a key (Go's `delete`). -/
def adel {α : Type} : List (H × α) → H → List (H × α)
  | [], _ => []
  | (a, v) :: l, k => if a = k then adel l k else (a, v) :: adel l k

/-- The keys of an association list. -/
def akeys {α : Type} : List (H × α) → List H
  | [] => []
  | (a, _) :: l => a :: akeys l

theorem alook_aupd_self {α : Type} (l : List (H × α)) (k : H) (f : α → α) :
    alook (aupd l k f) k = (alook l k).map f := by
  induction l with
  | nil => rfl
  | cons p l ih =>
    obtain ⟨a, v⟩ := p
    by_cases h : a = k
    · simp [aupd, alook, h]
    · simp [aupd, alook, h]
      exact ih

theorem alook_aupd_ne {α : Type} (l : List (H × α)) (k x : H) (f : α → α)
    (h : x ≠ k) : alook (aupd l k f) x = alook l x := by
  induction l with
  | nil => rfl
  | cons p l ih =>
    obtain ⟨a, v⟩ := p
    by_cases hp : a = k
    · simp [aupd, alook, hp, Ne.symm h]
      exact ih
    · by_cases hx : a = x
      · simp [aupd, alook, hp, hx, h]
      · simp [aupd, alook, hp, hx]
        exact ih

theorem alook_adel_self {α : Type} (l : List (H × α)) (k : H) :
    alook (adel l k) k = none := by
  induction l with
  | nil => rfl
  | cons p l ih =>
    obtain ⟨a, v⟩ := p
    by_cases h : a = k
    · simpa [adel, h] using ih
    · simp [adel, alook, h]
      exact ih

theorem alook_adel_ne {α : Type} (l : List (H × α)) (k x : H) (h : x ≠ k) :
    alook (adel l k) x = alook l x := by
  induction l with
  | nil => rfl
  | cons p l ih =>
    obtain ⟨a, v⟩ := p
    by_cases hp : a = k
    · simp [adel, alook, hp, Ne.symm h]
      exact ih
    · by_cases hx : a = x
      · simp [adel, alook, hp, hx, h]
      · simp [adel, alook, hp, hx]
        exact ih

/-- An in-memory cached trie node (`cachedNode`).  The decoded node value is
abstracted by the list of child hashes embedded in it (what
`forGatherChildren` would visit, in order) together with its RLP encoding
(what `cachedNode.rlp()` would return); `size`/`parents` counters are
modelled unbounded (`uint16`/`uint32` in Go — no claim depends on
wraparound). -/
structure Entry where
  nodeChildren : List H
  blob : Bytes
  size : Nat
  parents : Nat
  childrenMap : Option (List (H × Nat))
  flushPrev : H
  flushNext : H
deriving Repr, DecidableEq

/-- The mutable cache state of `Database`: the dirty-node map and the
flush-list endpoints (metric counters and locks are omitted). -/
structure DB where
  dirties : List (H × Entry)
  oldest : H
  newest : H
deriving Repr, DecidableEq

/-- Count lookup in an external-children map; a missing key reads as 0. -/
def mget (m : List (H × Nat)) (c : H) : Nat := (alook m c).getD 0

/-- `children[child]++`: bump an existing key or add it with count 1. -/
def mincr (m : List (H × Nat)) (c : H) : List (H × Nat) :=
  match alook m c with
  | some _ => aupd m c (· + 1)
  | none => m ++ [(c, 1)]

/-- `children[child]--` followed by `delete` when the count reaches zero
(only invoked under a `count > 0` guard). -/
def mdecr (m : List (H × Nat)) (c : H) : List (H × Nat) :=
  match alook m c with
  | some n => if n ≤ 1 then adel m c else aupd m c (· - 1)
  | none => m

/-- `cachedNode.forChilds`: visit every key of the external children map,
then every child hash embedded in the node. -/
def forChildsList (e : Entry) : List H :=
  akeys (e.childrenMap.getD []) ++ e.nodeChildren

/-- `NewDatabaseWithConfig`: the fresh dirty map holds only the zero-hash
meta-root, whose external-children map is allocated (non-nil) and empty. -/
def NewDatabase : DB :=
  { dirties := [(zeroH,
      { nodeChildren := [], blob := [], size := 0, parents := 0,
        childrenMap := some [], flushPrev := zeroH, flushNext := zeroH })],
    oldest := zeroH, newest := zeroH }

/-- The parent-count bump `c.parents++` applied to one entry. -/
def bumpParents (e : Entry) : Entry := { e with parents := e.parents + 1 }

/-- Occurrence count of a hash in a child list. -/
def occs (cs : List H) (c : H) : Nat :=
  match cs with
  | [] => 0
  | x :: t => (if x = c then 1 else 0) + occs t c

/-- `Database.insert(hash, size, node)`: no-op when already dirty; otherwise
create the cached entry, bump the parent count of every embedded child
already present in the dirty map, add the entry, and append it at the
flush-list tail. -/
def insert (s : DB) (hash : H) (size : Nat) (nodeChildren : List H)
    (blob : Bytes) : DB :=
  match alook s.dirties hash with
  | some _ => s
  | none =>
    let entry : Entry :=
      { nodeChildren := nodeChildren, blob := blob, size := size,
        parents := 0, childrenMap := none,
        flushPrev := s.newest, flushNext := zeroH }
    let dirties := nodeChildren.foldl
      (fun d c => aupd d c bumpParents)
      s.dirties
    let dirties := (hash, entry) :: dirties
    if s.oldest = zeroH then
      { dirties := dirties, oldest := hash, newest := hash }
    else
      { dirties := aupd dirties s.newest fun e => { e with flushNext := hash },
        oldest := s.oldest, newest := hash }

/-- `Database.reference` (the locked body of `Reference`): skip when the
child is not dirty; allocate the parent's children map if nil; skip
duplicate edges except under the meta-root; otherwise bump the child's
parent count and the parent's edge count.  (When the parent itself is not
dirty the Go code faults on a nil pointer; such calls never occur in the
repository and are modelled as no-ops.) -/
def referenceApply (s : DB) (child parent : H) : DB :=
  let d1 := aupd s.dirties child fun e => { e with parents := e.parents + 1 }
  let d2 := aupd d1 parent fun e =>
    { e with childrenMap := some (mincr (e.childrenMap.getD []) child) }
  { s with dirties := d2 }

def reference (s : DB) (child parent : H) : DB :=
  match alook s.dirties child with
  | none => s
  | some _ =>
    match alook s.dirties parent with
    | none => s
    | some pnode =>
      match pnode.childrenMap with
      | none => referenceApply s child parent
      | some m =>
        if (alook m child).isSome && parent ≠ zeroH then s
        else referenceApply s child parent

/-- `Database.Reference(child, parent)` — the public, locked entry point. -/
def Reference (s : DB) (child parent : H) : DB := reference s child parent

theorem alook_foldl_bump (cs : List H) (d : List (H × Entry)) (c : H) :
    alook (cs.foldl (fun d c => aupd d c bumpParents) d) c
      = (alook d c).map fun e => { e with parents := e.parents + occs cs c } := by
  induction cs generalizing d with
  | nil =>
    cases h : alook d c <;> simp [occs, h]
  | cons x cs ih =>
    rw [List.foldl_cons, ih]
    by_cases hx : x = c
    · subst hx
      rw [alook_aupd_self]
      cases h : alook d x with
      | none => simp [h]
      | some e =>
        simp [h, bumpParents, occs, Entry.mk.injEq]
        omega
    · rw [alook_aupd_ne _ _ _ _ (fun e => hx e.symm)]
      cases h : alook d c <;> simp [h, occs, hx]

/-- C5: `insert` is a no-op when the hash is already dirty; otherwise it
creates the cached entry (no parents, nil children map, previous pointer at
the old tail), appends it at the flush-list tail — becoming both oldest and
newest when the list was empty — and bumps the parent count of exactly the
embedded children already present in the dirty map (once per occurrence),
leaving every other entry untouched apart from the old tail's next
pointer. -/
theorem insert_spec (s : DB) (hash : H) (size : Nat) (nc : List H)
    (blob : Bytes) :
    ((alook s.dirties hash).isSome → insert s hash size nc blob = s) ∧
    (alook s.dirties hash = none →
      (insert s hash size nc blob).newest = hash ∧
      (insert s hash size nc blob).oldest
        = (if s.oldest = zeroH then hash else s.oldest) ∧
      alook (insert s hash size nc blob).dirties hash = some
        { nodeChildren := nc, blob := blob, size := size, parents := 0,
          childrenMap := none, flushPrev := s.newest,
          flushNext := if s.oldest ≠ zeroH ∧ s.newest = hash then hash
            else zeroH } ∧
      (∀ c, c ≠ hash →
        alook (insert s hash size nc blob).dirties c
          = (alook s.dirties c).map fun e =>
              { e with parents := e.parents + occs nc c,
                       flushNext := if s.oldest ≠ zeroH ∧ c = s.newest
                         then hash else e.flushNext })) := by
  constructor
  · intro hsome
    obtain ⟨e, he⟩ := Option.isSome_iff_exists.mp hsome
    unfold insert
    rw [he]
  · intro hnone
    unfold insert
    rw [hnone]
    by_cases hold : s.oldest = zeroH
    · simp only [if_pos hold]
      refine ⟨trivial, ?_, ?_, ?_⟩
      · simp [hold]
      · simp [alook, hold]
      · intro c hc
        simp only [alook, if_neg (Ne.symm hc)]
        rw [alook_foldl_bump]
        cases h : alook s.dirties c <;> simp [h, hold]
    · simp only [if_neg hold]
      refine ⟨trivial, ?_, ?_, ?_⟩
      · simp [hold]
      · by_cases hnh : s.newest = hash
        · rw [hnh, alook_aupd_self]
          simp [alook, hold, hnh]
        · rw [alook_aupd_ne _ _ _ _ (Ne.symm hnh)]
          simp [alook, hold, hnh]
      · intro c hc
        by_cases hcn : c = s.newest
        · rw [← hcn, alook_aupd_self]
          simp only [alook, if_neg (Ne.symm hc)]
          rw [alook_foldl_bump]
          cases h : alook s.dirties c <;> simp [h, hold]
        · rw [alook_aupd_ne _ _ _ _ hcn]
          simp only [alook, if_neg (Ne.symm hc)]
          rw [alook_foldl_bump]
          cases h : alook s.dirties c <;> simp [h, hold, hcn]

/-- Witness for C5: re-inserting an existing hash leaves the state
unchanged, and a fresh insert becomes the flush-list tail. -/
theorem insert_spec_witness :
    (insert (insert NewDatabase [1] 3 [] [9]) [1] 3 [] [9]
       = insert NewDatabase [1] 3 [] [9]) ∧
    (insert (insert NewDatabase [1] 3 [] [9]) [2] 4 [[1]] [8]).newest
       = [2] :=
  ⟨(insert_spec _ [1] 3 [] [9]).1 (by decide),
   ((insert_spec _ [2] 4 [[1]] [8]).2 (by decide)).1⟩

/-- Insert-or-replace, modelling a plain Go map write. -/
def aset {α : Type} (l : List (H × α)) (k : H) (v : α) : List (H × α) :=
  match alook l k with
  | some _ => aupd l k fun _ => v
  | none => l ++ [(k, v)]

/-- The clean cache (`fastcache`), keyed by the raw hash bytes; `none`
models a `Database` built without a clean cache. -/
abbrev Cleans := Option (List (H × Bytes))

/-- Errors surfaced by `Database.Node`: the literal "not found" error, or
an error propagated verbatim from the persistent store. -/
inductive NodeErr
  | notFound
  | store (code : Nat)
deriving Repr, DecidableEq

/-- The persistent store (`ethdb.Database.Get`), keyed by CID bytes. -/
abbrev Disk := Bytes → Except Nat Bytes

/-- `fastcache.Get` through the `enc != nil` test: only a non-empty cached
value counts as a hit. -/
def cleanGet (cleans : Cleans) (hash : H) : Option Bytes :=
  match cleans with
  | none => none
  | some cc =>
    match alook cc hash with
    | some enc => if enc = [] then none else some enc
    | none => none

/-- `fastcache.Set` (no-op when the database has no clean cache). -/
def cleanSet (cleans : Cleans) (hash : H) (enc : Bytes) : Cleans :=
  match cleans with
  | none => none
  | some cc => some (aset cc hash enc)

/-- `Database.Node(hash, codec)`: refuse the meta-root, then try the clean
cache, then the dirty map (returning the cached node's RLP), then the
persistent store at the CID derived from `(codec, hash)`; a successful
store read of a non-empty blob populates the clean cache; an empty store
result is the "not found" error.  Returns the result together with the
clean cache (the only other state it can change). -/
def Node (cleans : Cleans) (disk : Disk) (s : DB) (hash : H) (codec : Nat) :
    Except NodeErr Bytes × Cleans :=
  if hash = zeroH then (.error .notFound, cleans)
  else
    match cleanGet cleans hash with
    | some enc => (.ok enc, cleans)
    | none =>
      match alook s.dirties hash with
      | some dirty => (.ok dirty.blob, cleans)
      | none =>
        match disk (Cid.Keccak256ToCid codec hash) with
        | .error e => (.error (.store e), cleans)
        | .ok enc =>
          if enc = [] then (.error .notFound, cleans)
          else (.ok enc, cleanSet cleans hash enc)

/-- C2: for a non-zero hash, `Node` consults the clean cache first, then
the dirty map, then the persistent store keyed by the content identifier
derived from the hash and codec; a successful store read of a non-empty
blob inserts it into the clean cache before returning; and when all three
places miss, the call returns a not-found error (the store's own error, or
the literal "not found" on an empty result) rather than crashing. -/
theorem node_lookup_order (cleans : Cleans) (disk : Disk) (s : DB)
    (hash : H) (codec : Nat) (hnz : hash ≠ zeroH) :
    (∀ enc, cleanGet cleans hash = some enc →
       Node cleans disk s hash codec = (.ok enc, cleans)) ∧
    (cleanGet cleans hash = none →
      (∀ d, alook s.dirties hash = some d →
         Node cleans disk s hash codec = (.ok d.blob, cleans)) ∧
      (alook s.dirties hash = none →
        (∀ e, disk (Cid.Keccak256ToCid codec hash) = .error e →
           Node cleans disk s hash codec = (.error (.store e), cleans)) ∧
        (∀ enc, disk (Cid.Keccak256ToCid codec hash) = .ok enc → enc ≠ [] →
           Node cleans disk s hash codec
             = (.ok enc, cleanSet cleans hash enc)) ∧
        (disk (Cid.Keccak256ToCid codec hash) = .ok [] →
           Node cleans disk s hash codec = (.error .notFound, cleans)))) := by
  refine ⟨?_, ?_⟩
  · intro enc hhit
    unfold Node
    rw [if_neg hnz, hhit]
  · intro hmiss
    refine ⟨?_, ?_⟩
    · intro d hd
      unfold Node
      rw [if_neg hnz, hmiss, hd]
    · intro hdirty
      refine ⟨?_, ?_, ?_⟩
      · intro e he
        unfold Node
        rw [if_neg hnz, hmiss, hdirty, he]
      · intro enc henc hne
        unfold Node
        rw [if_neg hnz, hmiss, hdirty, henc]
        simp [hne]
      · intro hempty
        unfold Node
        rw [if_neg hnz, hmiss, hdirty, hempty]
        simp

/-- Witness for C2: a full miss — empty clean cache, fresh database, store
returning an empty blob — produces the not-found error; and a dirty hit
returns the cached entry's encoding without touching the store. -/
theorem node_lookup_order_witness :
    Node (some []) (fun _ => .ok []) NewDatabase [1] 0x96
      = (.error .notFound, some []) :=
  (((node_lookup_order (some []) (fun _ => .ok []) NewDatabase [1] 0x96
      (by decide)).2 rfl).2 (by decide)).2.2 rfl

/-- The well-known empty-trie root
`56e81f171bcc55a6ff8345e692c0f86e5b48e01b996cadc001622fb5e363b421`
(`types.EmptyRootHash`). -/
def emptyRootH : H :=
  [0x56, 0xe8, 0x1f, 0x17, 0x1b, 0xcc, 0x55, 0xa6,
   0xff, 0x83, 0x45, 0xe6, 0x92, 0xc0, 0xf8, 0x6e,
   0x5b, 0x48, 0xe0, 0x1b, 0x99, 0x6c, 0xad, 0xc0,
   0x01, 0x62, 0x2f, 0xb5, 0xe3, 0x63, 0xb4, 0x21]

/-- One dirty node of a commit (`memoryNode` with its deletion tag, as
tested by `isDeleted`).  The decoded node is abstracted as in `Entry`. -/
structure MemoryNode where
  hash : H
  size : Nat
  nodeChildren : List H
  blob : Bytes
  deleted : Bool
deriving Repr, DecidableEq

/-- An account leaf tracked by a NodeSet.  The RLP blob is abstracted by
the decoded `types.StateAccount.Root` it contains (`none` models a blob
`rlp.DecodeBytes` rejects); `parent` is the hash of the trie node holding
the leaf. -/
structure Leaf where
  acctRoot : Option H
  parent : H
deriving Repr, DecidableEq

/-- A per-owner `NodeSet`.  Modelled from the spec: `nodeset.go` is not
under `src/`; per §4.2 `forEachWithOrder` visits entries with children
before the parents that reference them, and the model takes the stored
list order as that visit order. -/
structure NodeSetM where
  nodes : List MemoryNode
  leaves : List Leaf
deriving Repr, DecidableEq

/-- `MergedNodeSet`: per-owner subsets keyed by the owner hash (zero owner
= account trie). -/
structure MergedNodeSet where
  sets : List (H × NodeSetM)
deriving Repr, DecidableEq

/-- One subset pass of `Update`: insert each non-deleted node. -/
def insertSubset (s : DB) (ns : NodeSetM) : DB :=
  ns.nodes.foldl
    (fun acc n =>
      if n.deleted then acc
      else insert acc n.hash n.size n.nodeChildren n.blob) s

/-- The processing order `Update` builds: every storage-trie subset
(non-zero owner) first, the account-trie subset (zero owner) last. -/
def updateOrder (sets : List (H × NodeSetM)) : List (H × NodeSetM) :=
  sets.filter (fun p => p.1 ≠ zeroH) ++ sets.filter (fun p => p.1 = zeroH)

/-- The account-leaf pass of `Update`: decode each leaf (a `none` root
models an `rlp` error, which aborts with the error after the references
recorded so far) and `reference` every non-empty storage root to the
leaf's parent. -/
def refLeaves (s : DB) (leaves : List Leaf) : DB × Bool :=
  match leaves with
  | [] => (s, false)
  | lf :: rest =>
    match lf.acctRoot with
    | none => (s, true)
    | some root =>
      refLeaves (if root = emptyRootH then s else reference s root lf.parent)
        rest

/-- `Database.Update(nodes)`: insert the non-deleted entries of every
subset, storage tries before the account trie, then link account leaves to
their storage roots.  The boolean is the error flag of the leaf pass. -/
def Update (s : DB) (m : MergedNodeSet) : DB × Bool :=
  let s1 := (updateOrder m.sets).foldl (fun acc p => insertSubset acc p.2) s
  match alook m.sets zeroH with
  | some set => refLeaves s1 set.leaves
  | none => (s1, false)

/-- The flattened insertion trace of an `Update`: `(owner, node)` pairs of
the non-deleted entries in the order they reach `insert`. -/
def insertionTrace (m : MergedNodeSet) : List (H × MemoryNode) :=
  (updateOrder m.sets).flatMap
    fun p => (p.2.nodes.filter fun n => !n.deleted).map fun n => (p.1, n)

/-- One step of the flattened insertion pass. -/
def insOne (acc : DB) (pr : H × MemoryNode) : DB :=
  insert acc pr.2.hash pr.2.size pr.2.nodeChildren pr.2.blob

/-- The account-trie leaves an `Update` call processes. -/
def leavesOf (m : MergedNodeSet) : List Leaf :=
  ((alook m.sets zeroH).map NodeSetM.leaves).getD []

/-- A recorded parent→child reference edge: the parent is dirty and its
external-children map has an entry for the child. -/
def edgePresent (s : DB) (parent child : H) : Bool :=
  match alook s.dirties parent with
  | none => false
  | some e =>
    match e.childrenMap with
    | none => false
    | some m => (alook m child).isSome

theorem alook_aupd_isSome {α : Type} (l : List (H × α)) (k x : H) (f : α → α) :
    (alook (aupd l k f) x).isSome = (alook l x).isSome := by
  by_cases hx : x = k
  · subst hx
    rw [alook_aupd_self]
    cases alook l x <;> rfl
  · rw [alook_aupd_ne _ _ _ _ hx]

theorem insert_isSome (s : DB) (h : H) (sz : Nat) (nc : List H) (bl : Bytes)
    (x : H) :
    (alook (insert s h sz nc bl).dirties x).isSome
      = ((alook s.dirties x).isSome || x = h) := by
  cases hp : alook s.dirties h with
  | some e =>
    rw [(insert_spec s h sz nc bl).1 (by rw [hp]; rfl)]
    by_cases hx : x = h
    · subst hx
      simp [hp]
    · simp [hx]
  | none =>
    obtain ⟨-, -, hhash, hother⟩ := (insert_spec s h sz nc bl).2 hp
    by_cases hx : x = h
    · subst hx
      simp [hhash, hp]
    · rw [hother x hx]
      cases hq : alook s.dirties x <;> simp [hq, hx]

theorem referenceApply_isSome (s : DB) (c p x : H) :
    (alook (referenceApply s c p).dirties x).isSome
      = (alook s.dirties x).isSome := by
  unfold referenceApply
  simp only [alook_aupd_isSome]

theorem reference_isSome (s : DB) (c p x : H) :
    (alook (reference s c p).dirties x).isSome
      = (alook s.dirties x).isSome := by
  unfold reference
  split
  · rfl
  · split
    · rfl
    · split
      · exact referenceApply_isSome s c p x
      · split
        · rfl
        · exact referenceApply_isSome s c p x

theorem insertSubset_isSome (ns : NodeSetM) (s : DB) (x : H) :
    (alook (insertSubset s ns).dirties x).isSome
      = ((alook s.dirties x).isSome
          || (ns.nodes.filter fun n => !n.deleted).any fun n => x = n.hash) := by
  show (alook (ns.nodes.foldl _ s).dirties x).isSome = _
  induction ns.nodes generalizing s with
  | nil => simp
  | cons n rest ih =>
    rw [List.foldl_cons, List.filter_cons]
    by_cases hd : n.deleted = true
    · rw [if_pos hd, ih]
      simp [hd]
    · rw [if_neg hd, ih, insert_isSome]
      simp only [Bool.not_eq_true] at hd
      simp [hd, Bool.or_assoc]

theorem alook_append {α : Type} (l₁ l₂ : List (H × α)) (x : H) :
    alook (l₁ ++ l₂) x
      = match alook l₁ x with
        | some v => some v
        | none => alook l₂ x := by
  induction l₁ with
  | nil => rfl
  | cons p l ih =>
    obtain ⟨a, v⟩ := p
    by_cases h : a = x <;> simp [alook, h, ih]

theorem alook_mincr_self_isSome (m : List (H × Nat)) (c : H) :
    (alook (mincr m c) c).isSome := by
  unfold mincr
  cases hm : alook m c with
  | some n =>
    rw [alook_aupd_self, hm]
    rfl
  | none =>
    rw [alook_append, hm]
    simp [alook]

theorem alook_mincr_isSome_mono (m : List (H × Nat)) (c c' : H)
    (h : (alook m c).isSome) : (alook (mincr m c') c).isSome := by
  by_cases hcc : c = c'
  · subst hcc
    exact alook_mincr_self_isSome m c
  · unfold mincr
    cases hm : alook m c' with
    | some n =>
      rw [alook_aupd_ne _ _ _ _ hcc]
      exact h
    | none =>
      obtain ⟨v, hv⟩ := Option.isSome_iff_exists.mp h
      rw [alook_append, hv]
      rfl

theorem edgePresent_elim (s : DB) (p c : H) (h : edgePresent s p c = true) :
    ∃ e m, alook s.dirties p = some e ∧ e.childrenMap = some m ∧
      (alook m c).isSome := by
  unfold edgePresent at h
  split at h
  · exact absurd h (by simp)
  · next e heq =>
    split at h
    · exact absurd h (by simp)
    · next m hm => exact ⟨e, m, heq, hm, h⟩

theorem edgePresent_intro (s : DB) (p c : H) (e : Entry) (m : List (H × Nat))
    (he : alook s.dirties p = some e) (hm : e.childrenMap = some m)
    (hc : (alook m c).isSome) : edgePresent s p c = true := by
  unfold edgePresent
  simp only [he, hm]
  exact hc

/-- The children-key test of `edgePresent` on an already-fetched entry. -/
def edgeKey (o : Option Entry) (c : H) : Bool :=
  match o with
  | none => false
  | some e =>
    match e.childrenMap with
    | none => false
    | some m => (alook m c).isSome

theorem edgePresent_eq_edgeKey (s : DB) (p c : H) :
    edgePresent s p c = edgeKey (alook s.dirties p) c := rfl

theorem referenceApply_edge_self (s : DB) (c p : H)
    (hp : (alook s.dirties p).isSome) :
    edgePresent (referenceApply s c p) p c = true := by
  obtain ⟨e, he⟩ := Option.isSome_iff_exists.mp hp
  rw [edgePresent_eq_edgeKey]
  unfold referenceApply
  simp only
  rw [alook_aupd_self]
  by_cases hpc : p = c
  · subst hpc
    rw [alook_aupd_self, he]
    exact alook_mincr_self_isSome _ p
  · rw [alook_aupd_ne _ _ _ _ hpc, he]
    exact alook_mincr_self_isSome _ c

theorem referenceApply_edge_mono (s : DB) (c' p' p c : H)
    (h : edgePresent s p c = true) :
    edgePresent (referenceApply s c' p') p c = true := by
  obtain ⟨e, m, he, hm, hkey⟩ := edgePresent_elim s p c h
  rw [edgePresent_eq_edgeKey]
  unfold referenceApply
  simp only
  by_cases hpp : p = p'
  · subst hpp
    rw [alook_aupd_self]
    by_cases hpc : p = c'
    · subst hpc
      rw [alook_aupd_self, he]
      show (alook (mincr
          (({ e with parents := e.parents + 1 } : Entry).childrenMap.getD [])
          p) c).isSome = true
      rw [show ({ e with parents := e.parents + 1 } : Entry).childrenMap
            = some m from hm]
      exact alook_mincr_isSome_mono m c p hkey
    · rw [alook_aupd_ne _ _ _ _ hpc, he]
      show (alook (mincr (e.childrenMap.getD []) c') c).isSome = true
      rw [hm]
      exact alook_mincr_isSome_mono m c c' hkey
  · rw [alook_aupd_ne _ _ _ _ hpp]
    by_cases hpc : p = c'
    · subst hpc
      rw [alook_aupd_self, he]
      show edgeKey (some { e with parents := e.parents + 1 }) c = true
      have hbc : ({ e with parents := e.parents + 1 } : Entry).childrenMap
          = some m := hm
      simp only [edgeKey]
      rw [hbc]
      exact hkey
    · rw [alook_aupd_ne _ _ _ _ hpc, he]
      show edgeKey (some e) c = true
      simp only [edgeKey]
      rw [hm]
      exact hkey

theorem reference_edge_records (s : DB) (c p : H)
    (hc : (alook s.dirties c).isSome) (hp : (alook s.dirties p).isSome) :
    edgePresent (reference s c p) p c = true := by
  unfold reference
  split
  · next heq => rw [heq] at hc; exact absurd hc (by simp)
  · split
    · next heq => rw [heq] at hp; exact absurd hp (by simp)
    · next pe heqp =>
      split
      · exact referenceApply_edge_self s c p hp
      · next m heqm =>
        split
        · next hdup =>
          exact edgePresent_intro s p c pe m heqp heqm
            ((Bool.and_eq_true _ _).mp hdup |>.1)
        · exact referenceApply_edge_self s c p hp

theorem reference_edge_mono (s : DB) (c' p' p c : H)
    (h : edgePresent s p c = true) :
    edgePresent (reference s c' p') p c = true := by
  unfold reference
  split
  · exact h
  · split
    · exact h
    · split
      · exact referenceApply_edge_mono s c' p' p c h
      · split
        · exact h
        · exact referenceApply_edge_mono s c' p' p c h

theorem refLeaves_edge_mono (leaves : List Leaf) (s : DB) (p c : H)
    (h : edgePresent s p c = true) :
    edgePresent (refLeaves s leaves).1 p c = true := by
  induction leaves generalizing s with
  | nil => exact h
  | cons lf rest ih =>
    unfold refLeaves
    cases lf.acctRoot with
    | none => exact h
    | some root =>
      show edgePresent (refLeaves
        (if root = emptyRootH then s else reference s root lf.parent)
        rest).1 p c = true
      by_cases hr : root = emptyRootH
      · rw [if_pos hr]
        exact ih s h
      · rw [if_neg hr]
        exact ih _ (reference_edge_mono s root lf.parent p c h)

theorem refLeaves_isSome (leaves : List Leaf) (s : DB) (x : H) :
    (alook (refLeaves s leaves).1.dirties x).isSome
      = (alook s.dirties x).isSome := by
  induction leaves generalizing s with
  | nil => rfl
  | cons lf rest ih =>
    unfold refLeaves
    cases lf.acctRoot with
    | none => rfl
    | some root =>
      by_cases hr : root = emptyRootH
      · simp only [hr, if_pos]
        exact ih s
      · simp only [hr, if_neg, not_false_iff]
        rw [ih, reference_isSome]

theorem refLeaves_cons_eq (s : DB) (lf0 : Leaf) (rest : List Leaf)
    (root0 : H) (hroot0 : lf0.acctRoot = some root0) :
    refLeaves s (lf0 :: rest)
      = refLeaves
          (if root0 = emptyRootH then s else reference s root0 lf0.parent)
          rest := by
  conv_lhs => unfold refLeaves
  rw [hroot0]

theorem refLeaves_spec (leaves : List Leaf) (s : DB)
    (hdec : ∀ lf ∈ leaves, lf.acctRoot ≠ none) :
    (refLeaves s leaves).2 = false ∧
    (∀ lf ∈ leaves, ∀ root, lf.acctRoot = some root → root ≠ emptyRootH →
      (alook s.dirties root).isSome = true →
      (alook s.dirties lf.parent).isSome = true →
      edgePresent (refLeaves s leaves).1 lf.parent root = true) := by
  induction leaves generalizing s with
  | nil =>
    refine ⟨rfl, ?_⟩
    intro lf hlf
    cases hlf
  | cons lf0 rest ih =>
    have hdec0 := hdec lf0 (List.mem_cons_self _ _)
    have hdect : ∀ lf ∈ rest, lf.acctRoot ≠ none :=
      fun lf hlf => hdec lf (List.mem_cons_of_mem _ hlf)
    cases hroot0 : lf0.acctRoot with
    | none => exact absurd hroot0 hdec0
    | some root0 =>
      rw [refLeaves_cons_eq s lf0 rest root0 hroot0]
      by_cases hr0 : root0 = emptyRootH
      · rw [if_pos hr0]
        refine ⟨(ih s hdect).1, ?_⟩
        intro lf hlf root h1 h2 h3 h4
        rcases List.mem_cons.mp hlf with heq | hmem
        · subst heq
          rw [hroot0] at h1
          cases h1
          exact absurd hr0 h2
        · exact (ih s hdect).2 lf hmem root h1 h2 h3 h4
      · rw [if_neg hr0]
        refine ⟨(ih _ hdect).1, ?_⟩
        intro lf hlf root h1 h2 h3 h4
        rcases List.mem_cons.mp hlf with heq | hmem
        · subst heq
          rw [hroot0] at h1
          cases h1
          exact refLeaves_edge_mono rest _ lf.parent root0
            (reference_edge_records s root0 lf.parent h3 h4)
        · refine (ih _ hdect).2 lf hmem root h1 h2 ?_ ?_
          · rw [reference_isSome]
            exact h3
          · rw [reference_isSome]
            exact h4

theorem insertSubset_eq_filter_fold (ns : NodeSetM) (s : DB) (o : H) :
    insertSubset s ns
      = ((ns.nodes.filter fun n => !n.deleted).map fun n => (o, n)).foldl
          insOne s := by
  show ns.nodes.foldl _ s = _
  induction ns.nodes generalizing s with
  | nil => rfl
  | cons n rest ih =>
    rw [List.foldl_cons, List.filter_cons]
    cases hd : n.deleted with
    | true =>
      rw [if_pos rfl]
      rw [if_neg (by simp)]
      exact ih s
    | false =>
      rw [if_neg (by simp)]
      rw [if_pos (by simp), List.map_cons, List.foldl_cons]
      exact ih _

theorem phase1_eq_trace_fold (L : List (H × NodeSetM)) (s : DB) :
    L.foldl (fun acc p => insertSubset acc p.2) s
      = (L.flatMap fun p =>
          (p.2.nodes.filter fun n => !n.deleted).map fun n => (p.1, n)).foldl
          insOne s := by
  induction L generalizing s with
  | nil => rfl
  | cons p rest ih =>
    rw [List.foldl_cons, List.flatMap_cons, List.foldl_append,
      insertSubset_eq_filter_fold p.2 s p.1]
    exact ih _

theorem update_eq (s : DB) (m : MergedNodeSet) :
    Update s m
      = refLeaves ((insertionTrace m).foldl insOne s) (leavesOf m) := by
  unfold Update insertionTrace
  rw [phase1_eq_trace_fold]
  cases halook : alook m.sets zeroH with
  | none =>
    unfold leavesOf
    rw [halook]
    rfl
  | some set =>
    unfold leavesOf
    rw [halook]
    rfl

theorem foldl_insOne_isSome (tr : List (H × MemoryNode)) (s : DB) (x : H) :
    (alook (tr.foldl insOne s).dirties x).isSome
      = ((alook s.dirties x).isSome || tr.any fun pr => x = pr.2.hash) := by
  induction tr generalizing s with
  | nil => simp
  | cons pr rest ih =>
    rw [List.foldl_cons, ih]
    unfold insOne
    rw [insert_isSome]
    simp [Bool.or_assoc]

theorem insertionTrace_split (m : MergedNodeSet) :
    ∃ pre post : List (H × MemoryNode),
      insertionTrace m = pre ++ post ∧
      (∀ pr ∈ pre, pr.1 ≠ zeroH) ∧ (∀ pr ∈ post, pr.1 = zeroH) := by
  refine ⟨(m.sets.filter fun p => p.1 ≠ zeroH).flatMap
      (fun p => (p.2.nodes.filter fun n => !n.deleted).map fun n => (p.1, n)),
    (m.sets.filter fun p => p.1 = zeroH).flatMap
      (fun p => (p.2.nodes.filter fun n => !n.deleted).map fun n => (p.1, n)),
    ?_, ?_, ?_⟩
  · unfold insertionTrace updateOrder
    rw [List.flatMap_append]
  · intro pr hpr
    obtain ⟨p, hp, hin⟩ := List.mem_flatMap.mp hpr
    obtain ⟨n, hn, heq⟩ := List.mem_map.mp hin
    have := (List.mem_filter.mp hp).2
    rw [← heq]
    simpa using this
  · intro pr hpr
    obtain ⟨p, hp, hin⟩ := List.mem_flatMap.mp hpr
    obtain ⟨n, hn, heq⟩ := List.mem_map.mp hin
    have := (List.mem_filter.mp hp).2
    rw [← heq]
    simpa using this

/-- The flush-list unlink step of `dereference` once a node's parent count
reaches zero (`c1` is the node's entry): the `switch child` statement with
its oldest / newest / middle cases. -/
def unlinkFlush (s : DB) (child : H) (c1 : Entry) : DB :=
  if child = s.oldest then
    let d := aupd s.dirties c1.flushNext fun e => { e with flushPrev := zeroH }
    { s with oldest := c1.flushNext, dirties := d }
  else if child = s.newest then
    let d := aupd s.dirties c1.flushPrev fun e => { e with flushNext := zeroH }
    { s with newest := c1.flushPrev, dirties := d }
  else
    let d1 := aupd s.dirties c1.flushPrev
      fun e => { e with flushNext := c1.flushNext }
    let d2 := aupd d1 c1.flushNext fun e => { e with flushPrev := c1.flushPrev }
    { s with dirties := d2 }

/-- The parent's-children-map decrement step of `dereference`. -/
def derefParentStep (s : DB) (child parent : H) : DB :=
  match alook s.dirties parent with
  | none => s
  | some pnode =>
    match pnode.childrenMap with
    | none => s
    | some m =>
      if 0 < mget m child then
        let d := aupd s.dirties parent fun e =>
          { e with childrenMap := some (mdecr (e.childrenMap.getD []) child) }
        { s with dirties := d }
      else s

/-- `node.parents--` guarded by `node.parents > 0` (the reinjected-node
cornercase note in the Go source). -/
def decParents (e : Entry) : Entry :=
  if 0 < e.parents then { e with parents := e.parents - 1 } else e

/-- Write the decremented entry back through the map pointer. -/
def writeBack (s : DB) (child : H) (c1 : Entry) : DB :=
  { s with dirties := aupd s.dirties child fun _ => c1 }

/-- `delete(db.dirties, child)` after the cascade. -/
def derefPost (s4 : DB) (child : H) : DB :=
  { s4 with dirties := adel s4.dirties child }

/-- `Database.dereference(child, parent)`: drop the parent's map edge,
fetch the child, decrement and write back its parent count; if it reached
zero, unlink the node from the flush list, recursively dereference its
children, and delete it.  The Go recursion terminates because the
reference graph is acyclic; here the recursion depth is bounded by
explicit fuel, which `Dereference` sizes from the dirty map (sufficient
under the well-formedness invariants). -/
def deref (fuel : Nat) (child parent : H) (s : DB) : DB :=
  match fuel with
  | 0 => s
  | fuel + 1 =>
    match alook (derefParentStep s child parent).dirties child with
    | none => derefParentStep s child parent
    | some c0 =>
      if (decParents c0).parents = 0 then
        derefPost
          ((forChildsList (decParents c0)).foldl
            (fun acc h => deref fuel h child acc)
            (unlinkFlush
              (writeBack (derefParentStep s child parent) child
                (decParents c0))
              child (decParents c0)))
          child
      else writeBack (derefParentStep s child parent) child (decParents c0)

/-- `Database.Dereference(root)`: refuse the meta-root, then drop one
reference from the meta-root to `root`, cascading. -/
def Dereference (s : DB) (root : H) : DB :=
  if root = zeroH then s
  else deref (s.dirties.length + 1) root zeroH s

/-- C4 (amended): `Update` inserts exactly the non-deleted entries of the
merged node set into the dirty map, processing every storage-trie subset
(non-zero owner) before the account-trie subset (zero owner); and when
every account leaf decodes, it records — for each leaf whose storage root
differs from the empty-root sentinel — a reference edge from the leaf's
parent to that storage root, provided the storage root (and the parent)
are present in the dirty cache after the insertion passes; `Reference`
skips roots that are not dirty. -/
theorem update_spec (s : DB) (m : MergedNodeSet) :
    (∀ x, (alook (Update s m).1.dirties x).isSome
        = ((alook s.dirties x).isSome
            || (insertionTrace m).any fun pr => x = pr.2.hash)) ∧
    (Update s m
      = refLeaves ((insertionTrace m).foldl insOne s) (leavesOf m)) ∧
    (∃ pre post, insertionTrace m = pre ++ post
      ∧ (∀ pr ∈ pre, pr.1 ≠ zeroH) ∧ (∀ pr ∈ post, pr.1 = zeroH)) ∧
    ((∀ lf ∈ leavesOf m, lf.acctRoot ≠ none) →
      (Update s m).2 = false ∧
      (∀ lf ∈ leavesOf m, ∀ root, lf.acctRoot = some root →
        root ≠ emptyRootH →
        (alook ((insertionTrace m).foldl insOne s).dirties root).isSome
          = true →
        (alook ((insertionTrace m).foldl insOne s).dirties
            lf.parent).isSome = true →
        edgePresent (Update s m).1 lf.parent root = true)) := by
  refine ⟨?_, update_eq s m, insertionTrace_split m, ?_⟩
  · intro x
    rw [update_eq s m, refLeaves_isSome, foldl_insOne_isSome]
  · intro hdec
    obtain ⟨hflag, hedges⟩ :=
      refLeaves_spec (leavesOf m) ((insertionTrace m).foldl insOne s) hdec
    constructor
    · rw [update_eq s m]
      exact hflag
    · intro lf hlf root h1 h2 h3 h4
      rw [update_eq s m]
      exact hedges lf hlf root h1 h2 h3 h4

/-- Counterexample for C4 as stated: `Update` does not record a reference
edge for an account leaf whose (non-empty) storage root is absent from the
dirty cache — the node set below has one account node `[5]` and one leaf
decoding to storage root `[7]`, never inserted, and after `Update` the
dirty map holds no `[5] → [7]` edge even though the call succeeded. -/
theorem update_reference_counterexample :
    (Update NewDatabase
        { sets := [(zeroH,
            { nodes := [{ hash := [5], size := 1, nodeChildren := [],
                          blob := [], deleted := false }],
              leaves := [{ acctRoot := some [7], parent := [5] }] })] }).2
      = false ∧
    edgePresent
      (Update NewDatabase
        { sets := [(zeroH,
            { nodes := [{ hash := [5], size := 1, nodeChildren := [],
                          blob := [], deleted := false }],
              leaves := [{ acctRoot := some [7], parent := [5] }] })] }).1
      [5] [7] = false := by
  constructor
  · rfl
  · rfl

/-- Witness for C4: a node set with one storage subset (owner `[3]`,
node `[7]`) and one account subset (node `[5]` with a leaf referencing
storage root `[7]`) yields a dirty map containing both nodes and the
recorded `[5] → [7]` edge. -/
theorem update_spec_witness :
    (alook (Update NewDatabase
        { sets := [([3],
            { nodes := [{ hash := [7], size := 1, nodeChildren := [],
                          blob := [], deleted := false }], leaves := [] }),
          (zeroH,
            { nodes := [{ hash := [5], size := 1, nodeChildren := [[7]],
                          blob := [], deleted := false }],
              leaves := [{ acctRoot := some [7], parent := [5] }] })] }).1.dirties
      [7]).isSome = true ∧
    edgePresent (Update NewDatabase
        { sets := [([3],
            { nodes := [{ hash := [7], size := 1, nodeChildren := [],
                          blob := [], deleted := false }], leaves := [] }),
          (zeroH,
            { nodes := [{ hash := [5], size := 1, nodeChildren := [[7]],
                          blob := [], deleted := false }],
              leaves := [{ acctRoot := some [7], parent := [5] }] })] }).1
      [5] [7] = true := by
  constructor
  · rw [(update_spec NewDatabase _).1 [7]]
    decide
  · exact ((update_spec NewDatabase _).2.2.2 (by decide)).2
      { acctRoot := some [7], parent := [5] } (by decide) [7] rfl (by decide)
      (by decide) (by decide)

/-- Zero-safety of a dirty map: the meta-root entry is present and no
entry references the zero hash as a child (neither through its external
children map nor through its embedded children). -/
def zsList (d : List (H × Entry)) : Prop :=
  (alook d zeroH).isSome = true ∧
  ∀ h e, alook d h = some e → zeroH ∉ forChildsList e

/-- Zero-safety of a cache state. -/
def zeroSafe (s : DB) : Prop := zsList s.dirties

theorem zsList_aupd (d : List (H × Entry)) (k : H) (f : Entry → Entry)
    (hd : zsList d)
    (hf : ∀ e, alook d k = some e → zeroH ∉ forChildsList e →
      zeroH ∉ forChildsList (f e)) : zsList (aupd d k f) := by
  constructor
  · rw [alook_aupd_isSome]
    exact hd.1
  · intro h e he
    by_cases hk : h = k
    · subst hk
      rw [alook_aupd_self] at he
      cases halook : alook d h with
      | none => rw [halook] at he; cases he
      | some e0 =>
        rw [halook] at he
        cases he
        exact hf e0 halook (hd.2 h e0 halook)
    · rw [alook_aupd_ne _ _ _ _ hk] at he
      exact hd.2 h e he

theorem zsList_adel (d : List (H × Entry)) (k : H) (hk : k ≠ zeroH)
    (hd : zsList d) : zsList (adel d k) := by
  constructor
  · rw [alook_adel_ne _ _ _ (Ne.symm hk)]
    exact hd.1
  · intro h e he
    by_cases hq : h = k
    · subst hq
      rw [alook_adel_self] at he
      cases he
    · rw [alook_adel_ne _ _ _ hq] at he
      exact hd.2 h e he

theorem zsList_cons (d : List (H × Entry)) (h : H) (e : Entry)
    (hh : zeroH ∉ forChildsList e) (hd : zsList d) : zsList ((h, e) :: d) := by
  constructor
  · by_cases hz : h = zeroH
    · simp [alook, hz]
    · simp only [alook, if_neg hz]
      exact hd.1
  · intro h' e' he'
    simp only [alook] at he'
    by_cases hq : h = h'
    · rw [if_pos hq] at he'
      cases he'
      exact hh
    · rw [if_neg hq] at he'
      exact hd.2 h' e' he'

theorem akeys_aupd {α : Type} (m : List (H × α)) (k : H) (f : α → α) :
    akeys (aupd m k f) = akeys m := by
  induction m with
  | nil => rfl
  | cons p l ih =>
    obtain ⟨a, v⟩ := p
    by_cases h : a = k <;> simp [aupd, akeys, h, ih]

theorem akeys_append {α : Type} (l₁ l₂ : List (H × α)) :
    akeys (l₁ ++ l₂) = akeys l₁ ++ akeys l₂ := by
  induction l₁ with
  | nil => rfl
  | cons p l ih =>
    obtain ⟨a, v⟩ := p
    simp [akeys, ih]

theorem akeys_adel_subset {α : Type} (m : List (H × α)) (k x : H)
    (hx : x ∈ akeys (adel m k)) : x ∈ akeys m := by
  induction m with
  | nil => exact hx
  | cons p l ih =>
    obtain ⟨a, v⟩ := p
    by_cases h : a = k
    · simp only [adel, if_pos h] at hx
      simp only [akeys, List.mem_cons]
      exact Or.inr (ih hx)
    · simp only [adel, if_neg h, akeys, List.mem_cons] at hx ⊢
      rcases hx with hx | hx
      · exact Or.inl hx
      · exact Or.inr (ih hx)

theorem akeys_mincr_mem (x : H) (m : List (H × Nat)) (c : H)
    (hx : x ∈ akeys (mincr m c)) : x ∈ akeys m ∨ x = c := by
  unfold mincr at hx
  cases hm : alook m c with
  | some n =>
    simp only [hm, akeys_aupd] at hx
    exact Or.inl hx
  | none =>
    simp only [hm, akeys_append] at hx
    rcases List.mem_append.mp hx with hx | hx
    · exact Or.inl hx
    · simp [akeys] at hx
      exact Or.inr hx

theorem akeys_mdecr_mem (x : H) (m : List (H × Nat)) (c : H)
    (hx : x ∈ akeys (mdecr m c)) : x ∈ akeys m := by
  unfold mdecr at hx
  cases hm : alook m c with
  | some n =>
    simp only [hm] at hx
    by_cases hn : n ≤ 1
    · rw [if_pos hn] at hx
      exact akeys_adel_subset m c x hx
    · rw [if_neg hn] at hx
      rwa [akeys_aupd] at hx
  | none =>
    simp only [hm] at hx
    exact hx

theorem foldl_bump_zsList (cs : List H) (d : List (H × Entry))
    (hd : zsList d) :
    zsList (cs.foldl (fun d c => aupd d c bumpParents) d) := by
  induction cs generalizing d with
  | nil => exact hd
  | cons c rest ih =>
    rw [List.foldl_cons]
    refine ih _ (zsList_aupd d c bumpParents hd ?_)
    intro e _ he
    exact he

theorem insert_zeroSafe (s : DB) (h : H) (sz : Nat) (nc : List H)
    (bl : Bytes) (hnc : zeroH ∉ nc) (hs : zeroSafe s) :
    zeroSafe (insert s h sz nc bl) := by
  unfold insert
  cases hp : alook s.dirties h with
  | some e => exact hs
  | none =>
    by_cases hold : s.oldest = zeroH
    · rw [if_pos hold]
      refine zsList_cons _ h _ ?_ (foldl_bump_zsList nc s.dirties hs)
      simpa [forChildsList, akeys] using hnc
    · rw [if_neg hold]
      refine zsList_aupd _ s.newest _ ?_ (fun e _ he => he)
      refine zsList_cons _ h _ ?_ (foldl_bump_zsList nc s.dirties hs)
      simpa [forChildsList, akeys] using hnc

theorem reference_zeroSafe (s : DB) (c p : H) (hc : c ≠ zeroH)
    (hs : zeroSafe s) : zeroSafe (reference s c p) := by
  have happ : zeroSafe (referenceApply s c p) := by
    unfold referenceApply
    refine zsList_aupd _ p _ ?_ ?_
    · refine zsList_aupd _ c _ hs ?_
      intro e _ he
      exact he
    · intro e _ he
      intro hmem
      unfold forChildsList at hmem he
      rcases List.mem_append.mp hmem with hx | hx
      · rcases akeys_mincr_mem _ _ c (by simpa using hx) with hx' | hx'
        · exact he (List.mem_append.mpr (Or.inl hx'))
        · exact hc hx'.symm
      · exact he (List.mem_append.mpr (Or.inr hx))
  unfold reference
  split
  · exact hs
  · split
    · exact hs
    · split
      · exact happ
      · split
        · exact hs
        · exact happ

theorem unlinkFlush_zeroSafe (s : DB) (child : H) (c1 : Entry)
    (hs : zeroSafe s) : zeroSafe (unlinkFlush s child c1) := by
  unfold unlinkFlush
  by_cases h1 : child = s.oldest
  · rw [if_pos h1]
    exact zsList_aupd _ _ _ hs fun e _ he => he
  · rw [if_neg h1]
    by_cases h2 : child = s.newest
    · rw [if_pos h2]
      exact zsList_aupd _ _ _ hs fun e _ he => he
    · rw [if_neg h2]
      exact zsList_aupd _ _ _ (zsList_aupd _ _ _ hs fun e _ he => he)
        fun e _ he => he

theorem derefParentStep_zeroSafe (s : DB) (child parent : H)
    (hs : zeroSafe s) : zeroSafe (derefParentStep s child parent) := by
  unfold derefParentStep
  split
  · exact hs
  · split
    · exact hs
    · split
      · refine zsList_aupd _ parent _ hs ?_
        intro e _ he hmem
        unfold forChildsList at hmem he
        rcases List.mem_append.mp hmem with hx | hx
        · exact he (List.mem_append.mpr
            (Or.inl (akeys_mdecr_mem _ _ child (by simpa using hx))))
        · exact he (List.mem_append.mpr (Or.inr hx))
      · exact hs

theorem forChildsList_decParents (e : Entry) :
    forChildsList (decParents e) = forChildsList e := by
  unfold decParents
  by_cases h0 : 0 < e.parents <;> simp [h0, forChildsList]

theorem derefFold_zeroSafe (fuel : Nat) (child : H)
    (ih : ∀ c p s, zeroSafe s → c ≠ zeroH → zeroSafe (deref fuel c p s)) :
    ∀ (l : List H) (s : DB), (∀ h ∈ l, h ≠ zeroH) → zeroSafe s →
      zeroSafe (l.foldl (fun acc h => deref fuel h child acc) s) := by
  intro l
  induction l with
  | nil => intro s _ hs; exact hs
  | cons x rest ihl =>
    intro s hall hs
    rw [List.foldl_cons]
    exact ihl _ (fun h hm => hall h (List.mem_cons_of_mem _ hm))
      (ih x child s hs (hall x (List.mem_cons_self _ _)))

theorem deref_zeroSafe (fuel : Nat) :
    ∀ c p s, zeroSafe s → c ≠ zeroH → zeroSafe (deref fuel c p s) := by
  induction fuel with
  | zero =>
    intro c p s hs _
    rw [deref]
    exact hs
  | succ fuel ih =>
    intro c p s hs hc
    unfold deref
    have hs1 : zeroSafe (derefParentStep s c p) :=
      derefParentStep_zeroSafe s c p hs
    cases hlook : alook (derefParentStep s c p).dirties c with
    | none => exact hs1
    | some c0 =>
      have hzc : zeroH ∉ forChildsList (decParents c0) := by
        rw [forChildsList_decParents]
        exact hs1.2 c c0 hlook
      have hsw : zeroSafe (writeBack (derefParentStep s c p) c
          (decParents c0)) :=
        zsList_aupd _ c _ hs1 fun e _ _ => hzc
      show zeroSafe (if (decParents c0).parents = 0 then _ else _)
      by_cases hpz : (decParents c0).parents = 0
      · rw [if_pos hpz]
        have hall : ∀ h ∈ forChildsList (decParents c0), h ≠ zeroH := by
          intro h hmem heq
          exact hzc (heq ▸ hmem)
        exact zsList_adel _ c hc
          (derefFold_zeroSafe fuel c ih _ _ hall
            (unlinkFlush_zeroSafe _ c _ hsw))
      · rw [if_neg hpz]
        exact hsw

theorem Dereference_zeroSafe (s : DB) (r : H) (hs : zeroSafe s) :
    zeroSafe (Dereference s r) := by
  unfold Dereference
  by_cases hr : r = zeroH
  · rw [if_pos hr]
    exact hs
  · rw [if_neg hr]
    exact deref_zeroSafe _ r zeroH s hs hr

theorem refLeaves_zeroSafe (leaves : List Leaf) (s : DB)
    (hroots : ∀ lf ∈ leaves, ∀ r, lf.acctRoot = some r → r ≠ zeroH)
    (hs : zeroSafe s) : zeroSafe (refLeaves s leaves).1 := by
  induction leaves generalizing s with
  | nil => exact hs
  | cons lf rest ih =>
    cases hroot : lf.acctRoot with
    | none =>
      unfold refLeaves
      rw [hroot]
      exact hs
    | some root =>
      rw [refLeaves_cons_eq s lf rest root hroot]
      by_cases hr : root = emptyRootH
      · rw [if_pos hr]
        exact ih s (fun lf' h' => hroots lf' (List.mem_cons_of_mem _ h')) hs
      · rw [if_neg hr]
        refine ih _ (fun lf' h' => hroots lf' (List.mem_cons_of_mem _ h')) ?_
        exact reference_zeroSafe s root lf.parent
          (hroots lf (List.mem_cons_self _ _) root hroot) hs

theorem foldl_insOne_zeroSafe (tr : List (H × MemoryNode)) (s : DB)
    (htr : ∀ pr ∈ tr, zeroH ∉ pr.2.nodeChildren) (hs : zeroSafe s) :
    zeroSafe (tr.foldl insOne s) := by
  induction tr generalizing s with
  | nil => exact hs
  | cons pr rest ih =>
    rw [List.foldl_cons]
    refine ih _ (fun q hq => htr q (List.mem_cons_of_mem _ hq)) ?_
    exact insert_zeroSafe s pr.2.hash pr.2.size pr.2.nodeChildren pr.2.blob
      (htr pr (List.mem_cons_self _ _)) hs

theorem mem_updateOrder (sets : List (H × NodeSetM)) (p : H × NodeSetM)
    (hp : p ∈ updateOrder sets) : p ∈ sets := by
  unfold updateOrder at hp
  rcases List.mem_append.mp hp with hp | hp
  · exact (List.mem_filter.mp hp).1
  · exact (List.mem_filter.mp hp).1

theorem update_zeroSafe (s : DB) (m : MergedNodeSet)
    (hnodes : ∀ p ∈ m.sets, ∀ n ∈ p.2.nodes, zeroH ∉ n.nodeChildren)
    (hleaves : ∀ lf ∈ leavesOf m, ∀ r, lf.acctRoot = some r → r ≠ zeroH)
    (hs : zeroSafe s) : zeroSafe (Update s m).1 := by
  rw [update_eq]
  refine refLeaves_zeroSafe _ _ hleaves ?_
  refine foldl_insOne_zeroSafe _ s ?_ hs
  intro pr hpr
  unfold insertionTrace at hpr
  obtain ⟨p, hp, hin⟩ := List.mem_flatMap.mp hpr
  obtain ⟨n, hn, heq⟩ := List.mem_map.mp hin
  have hmem : n ∈ p.2.nodes := (List.mem_filter.mp hn).1
  have := hnodes p (mem_updateOrder m.sets p hp) n hmem
  rw [← heq]
  exact this

/-- A public cache operation, as named by the claim. -/
inductive Op
  | opInsert (hash : H) (size : Nat) (nodeChildren : List H) (blob : Bytes)
  | opReference (child parent : H)
  | opDereference (root : H)
  | opUpdate (m : MergedNodeSet)

/-- Run one operation. -/
def execOp (s : DB) : Op → DB
  | .opInsert h sz nc bl => insert s h sz nc bl
  | .opReference c p => Reference s c p
  | .opDereference r => Dereference s r
  | .opUpdate m => (Update s m).1

/-- Run a sequence of operations from a state. -/
def execOps (s : DB) (ops : List Op) : DB := ops.foldl execOp s

/-- The side condition of the amended C3: the operation never introduces
the zero hash as a child reference. -/
def zeroFreeOp : Op → Prop
  | .opInsert _ _ nc _ => zeroH ∉ nc
  | .opReference c _ => c ≠ zeroH
  | .opDereference _ => True
  | .opUpdate m =>
      (∀ p ∈ m.sets, ∀ n ∈ p.2.nodes, zeroH ∉ n.nodeChildren) ∧
      (∀ lf ∈ leavesOf m, ∀ r, lf.acctRoot = some r → r ≠ zeroH)

theorem execOp_zeroSafe (s : DB) (op : Op) (hop : zeroFreeOp op)
    (hs : zeroSafe s) : zeroSafe (execOp s op) := by
  cases op with
  | opInsert h sz nc bl => exact insert_zeroSafe s h sz nc bl hop hs
  | opReference c p => exact reference_zeroSafe s c p hop hs
  | opDereference r => exact Dereference_zeroSafe s r hs
  | opUpdate m => exact update_zeroSafe s m hop.1 hop.2 hs

theorem NewDatabase_zeroSafe : zeroSafe NewDatabase := by
  constructor
  · rfl
  · intro h e he
    unfold NewDatabase alook at he
    by_cases hz : zeroH = h
    · rw [if_pos hz] at he
      cases he
      simp [forChildsList, akeys]
    · rw [if_neg hz] at he
      cases he

/-- C3 (amended): the zero-hash meta-root entry is present in the dirty
map from construction, and `Dereference` called with the zero hash itself
is a no-op on the cache state; moreover the entry survives any sequence of
`insert`, `Reference`, `Dereference` and `Update` operations in which the
zero hash is never introduced as a child reference (no inserted or updated
node lists it among its children, `Reference` is never given it as the
child, and no decoded account root equals it).  Without that restriction
the entry can be removed (see the counterexample). -/
theorem metaRoot_preserved :
    ((alook NewDatabase.dirties zeroH).isSome = true) ∧
    (∀ s, Dereference s zeroH = s) ∧
    (∀ ops : List Op, (∀ op ∈ ops, zeroFreeOp op) →
      (alook (execOps NewDatabase ops).dirties zeroH).isSome = true) := by
  refine ⟨rfl, ?_, ?_⟩
  · intro s
    unfold Dereference
    rw [if_pos rfl]
  · intro ops hops
    suffices h : zeroSafe (execOps NewDatabase ops) from h.1
    unfold execOps
    have hbase := NewDatabase_zeroSafe
    revert hbase
    generalize NewDatabase = s0
    induction ops generalizing s0 with
    | nil => intro h; exact h
    | cons op rest ih =>
      intro hbase
      rw [List.foldl_cons]
      exact ih (fun o ho => hops o (List.mem_cons_of_mem _ ho)) _
        (execOp_zeroSafe s0 op (hops op (List.mem_cons_self _ _)) hbase)

/-- Counterexample for C3 as stated: referencing the zero hash as a child
of a floating node and then dereferencing that node deletes the meta-root
entry from the dirty map. -/
theorem metaRoot_removed_counterexample :
    alook (execOps NewDatabase
      [.opInsert [1] 1 [] [],
       .opReference zeroH [1],
       .opDereference [1]]).dirties zeroH = none := by
  decide

/-- Witness for C3: a zero-free operation sequence (an insert, a normal
reference anchoring it to the meta-root, and its dereference) leaves the
meta-root present. -/
theorem metaRoot_preserved_witness :
    (alook (execOps NewDatabase
      [.opInsert [1] 1 [] [],
       .opReference [1] zeroH,
       .opDereference [1]]).dirties zeroH).isSome = true :=
  metaRoot_preserved.2.2
    [.opInsert [1] 1 [] [], .opReference [1] zeroH, .opDereference [1]]
    (by
      intro op hop
      simp only [List.mem_cons, List.not_mem_nil, or_false] at hop
      rcases hop with rfl | rfl | rfl
      · exact (by decide : zeroH ∉ ([] : List H))
      · exact (by decide : ([1] : H) ≠ zeroH)
      · exact trivial)

/-- A cache holding, besides the meta-root: node `[1]` (no children), node
`[2]` embedding `[1]` as a child (so `[1]`'s parent count is 1), with `[2]`
anchored to the meta-root by `Reference`. -/
def exDB : DB :=
  Reference (insert (insert NewDatabase [1] 1 [] []) [2] 1 [[1]] []) [2] zeroH

/-- C1 counterexample: in `exDB`, node `[1]` is reachable from the
meta-root through the retained root `[2]` (which embeds it as a child),
yet `Dereference [1]` deletes `[1]` from the dirty map — `dereference`
decrements the child's parent count even when the parent being
dereferenced against records no edge to it — while `[2]` stays present,
still referenced by the meta-root and still listing `[1]` as a child.  So
the call removes a node that was *not* reachable only from its argument. -/
theorem dereference_shared_child_removed_counterexample :
    ((alook exDB.dirties [1]).isSome = true)
    ∧ (((alook exDB.dirties zeroH).map
        fun e => mget (Option.getD e.childrenMap []) [2]) = some 1)
    ∧ (((alook exDB.dirties [2]).map Entry.nodeChildren) = some [[1]])
    ∧ (alook (Dereference exDB [1]).dirties [1] = none)
    ∧ (((alook (Dereference exDB [1]).dirties [2]).map Entry.nodeChildren)
        = some [[1]])
    ∧ (((alook (Dereference exDB [1]).dirties [2]).map Entry.parents)
        = some 1) := by decide

theorem alook_adel_isSome {α : Type} (l : List (H × α)) (k x : H)
    (h : (alook (adel l k) x).isSome = true) : (alook l x).isSome = true := by
  by_cases hx : x = k
  · subst hx
    rw [alook_adel_self] at h
    cases h
  · rw [alook_adel_ne l k x hx] at h
    exact h

/-- The parent's-edge-drop step touches no entry other than the parent. -/
theorem derefParentStep_alook_ne (s : DB) (c p x : H) (hx : x ≠ p) :
    alook (derefParentStep s c p).dirties x = alook s.dirties x := by
  unfold derefParentStep
  split
  · rfl
  · split
    · rfl
    · split
      · exact alook_aupd_ne s.dirties p x _ hx
      · rfl

theorem derefParentStep_isSome (s : DB) (c p x : H) :
    (alook (derefParentStep s c p).dirties x).isSome
      = (alook s.dirties x).isSome := by
  unfold derefParentStep
  split
  · rfl
  · split
    · rfl
    · split
      · exact alook_aupd_isSome s.dirties p x _
      · rfl

theorem unlinkFlush_isSome (s : DB) (c : H) (c1 : Entry) (x : H) :
    (alook (unlinkFlush s c c1).dirties x).isSome
      = (alook s.dirties x).isSome := by
  unfold unlinkFlush
  split
  · exact alook_aupd_isSome s.dirties c1.flushNext x _
  · split
    · exact alook_aupd_isSome s.dirties c1.flushPrev x _
    · rw [alook_aupd_isSome, alook_aupd_isSome]

theorem writeBack_isSome (s : DB) (c : H) (c1 : Entry) (x : H) :
    (alook (writeBack s c c1).dirties x).isSome
      = (alook s.dirties x).isSome := by
  unfold writeBack
  exact alook_aupd_isSome s.dirties c x _

/-- A cascading-dereference fold only ever removes dirty-map entries. -/
theorem foldl_deref_isSome (fuel : Nat)
    (hf : ∀ c p s x, (alook (deref fuel c p s).dirties x).isSome = true →
      (alook s.dirties x).isSome = true) :
    ∀ (hs : List H) (parent : H) (s : DB) (x : H),
      (alook (hs.foldl (fun acc h => deref fuel h parent acc) s).dirties
          x).isSome = true →
      (alook s.dirties x).isSome = true := by
  intro hs
  induction hs with
  | nil => intro parent s x h; exact h
  | cons c rest ih =>
    intro parent s x h
    rw [List.foldl_cons] at h
    exact hf c parent s x (ih parent (deref fuel c parent s) x h)

/-- `dereference` only ever removes dirty-map entries, never adds any. -/
theorem deref_isSome_antitone (fuel : Nat) :
    ∀ c p s x, (alook (deref fuel c p s).dirties x).isSome = true →
      (alook s.dirties x).isSome = true := by
  induction fuel with
  | zero => intro c p s x h; exact h
  | succ fuel ih =>
    intro c p s x h
    rw [deref] at h
    split at h
    · rw [derefParentStep_isSome] at h
      exact h
    · split at h
      · unfold derefPost at h
        have h2 := alook_adel_isSome _ c x h
        have h3 := foldl_deref_isSome fuel ih _ c _ x h2
        rw [unlinkFlush_isSome, writeBack_isSome, derefParentStep_isSome] at h3
        exact h3
      · rw [writeBack_isSome, derefParentStep_isSome] at h
        exact h

/-- C1 (amended): `Dereference(r)` (for `r` other than the zero hash) is
governed by recorded parent counts, not by reachability: (1) it never adds
dirty-map entries; (2) the initial edge-drop step against the meta-root
leaves every entry other than the meta-root untouched; (3) if `r` is not
dirty, only the meta-root's recorded edge to `r` is dropped; (4) if `r` is
dirty with parent count at least two, nothing is removed — `r` merely has
its count decremented by one and every other entry is as after the
edge-drop step; (5) if `r` is dirty with parent count at most one, `r`
itself is deleted from the dirty map, the removal cascading recursively
through its children by the same count rule — even when `r` is still
reachable from another retained root (see the counterexample). -/
theorem dereference_count_semantics (s : DB) (r : H) (hr : r ≠ zeroH) :
    (∀ x, (alook (Dereference s r).dirties x).isSome = true →
        (alook s.dirties x).isSome = true)
    ∧ (∀ x, x ≠ zeroH →
        alook (derefParentStep s r zeroH).dirties x = alook s.dirties x)
    ∧ (alook s.dirties r = none →
        Dereference s r = derefParentStep s r zeroH)
    ∧ (∀ e, alook s.dirties r = some e → 2 ≤ e.parents →
        (alook (Dereference s r).dirties r
            = some { e with parents := e.parents - 1 })
        ∧ (∀ x, x ≠ r → alook (Dereference s r).dirties x
            = alook (derefParentStep s r zeroH).dirties x))
    ∧ (∀ e, alook s.dirties r = some e → e.parents ≤ 1 →
        alook (Dereference s r).dirties r = none) := by
  have hscr : alook (derefParentStep s r zeroH).dirties r = alook s.dirties r :=
    derefParentStep_alook_ne s r zeroH r hr
  refine ⟨?_, ?_, ?_, ?_, ?_⟩
  · intro x h
    rw [Dereference, if_neg hr] at h
    exact deref_isSome_antitone _ r zeroH s x h
  · intro x hx
    exact derefParentStep_alook_ne s r zeroH x hx
  · intro hnone
    rw [Dereference, if_neg hr, deref]
    rw [hscr, hnone]
  · intro e he h2
    have hd : decParents e = { e with parents := e.parents - 1 } := by
      unfold decParents
      rw [if_pos (by omega)]
    have hne : ¬ (decParents e).parents = 0 := by
      rw [hd]
      simp only []
      omega
    constructor
    · rw [Dereference, if_neg hr, deref, hscr, he]
      simp only [hne, if_false]
      rw [writeBack]
      rw [alook_aupd_self, hscr, he, hd]
      rfl
    · intro x hx
      rw [Dereference, if_neg hr, deref, hscr, he]
      simp only [hne, if_false]
      rw [writeBack]
      rw [alook_aupd_ne _ r x _ hx]
  · intro e he h1
    have hz : (decParents e).parents = 0 := by
      unfold decParents
      split
      · simp only []
        omega
      · omega
    rw [Dereference, if_neg hr, deref, hscr, he]
    simp only [if_pos hz]
    unfold derefPost
    exact alook_adel_self _ r

/-- Witness for C1: in the concrete cache of the counterexample, node
`[2]` is dirty with parent count one, so dereferencing it deletes its
entry, as conjunct (5) of the amended theorem states. -/
theorem dereference_count_semantics_witness :
    alook (Dereference exDB [2]).dirties [2] = none :=
  (dereference_count_semantics exDB [2] (by decide)).2.2.2.2
    ⟨[[1]], [], 1, 1, none, [1], zeroH⟩ (by decide) (by decide)

end TrieDB

namespace MPT

/-- Trie nodes (`node` in the trie package): the four variants plus Go's
nil interface.  A well-formed `full` node carries exactly 17 children
(`[17]node`); indexing past the list's end is modelled as the panic the Go
array access would raise. -/
inductive N where
  | nilN : N
  | value : Bytes → N
  | short : List Nat → N → N
  | full : List N → N
  | hash : Bytes → N

/-- Errors surfaced by trie traversal: the database's literal "not found",
a propagated store error, a decode failure, `MissingNodeError` with its
owner / hash / path fields, and a marker for paths on which the Go code
panics (never reached by well-formed calls). -/
inductive TrieErr where
  | notFound
  | store (code : Nat)
  | decodeErr (code : Nat)
  | missingNode (owner : Bytes) (nodeHash : Bytes) (path : List Nat)
  | panicN
deriving Repr, DecidableEq

/-- The read-only CID-keyed trie database (`bycid/trie.Database`): a clean
cache and the persistent store.  The clean-cache population on a store hit
only memoises the very bytes the store returned, so reads are modelled as
a pure function of the two fields. -/
structure CDB where
  cleans : Option (List (Bytes × Bytes))
  disk : Bytes → Except Nat Bytes

/-- `fastcache.Get` through the `enc != nil` test. -/
def cget (cleans : Option (List (Bytes × Bytes))) (key : Bytes) :
    Option Bytes :=
  match cleans with
  | none => none
  | some cc =>
    match TrieDB.alook cc key with
    | some enc => if enc = [] then none else some enc
    | none => none

/-- `Database.Node(key)` of the CID-keyed database: reject an empty key,
try the clean cache, then the store; an empty store result is the literal
"not found" error. -/
def cdbNode (db : CDB) (key : Bytes) : Except TrieErr Bytes :=
  if key = [] then .error .notFound
  else
    match cget db.cleans key with
    | some enc => .ok enc
    | none =>
      match db.disk key with
      | .error e => .error (.store e)
      | .ok enc => if enc = [] then .error .notFound else .ok enc

/-- A `Trie` handle: owner, codec, database and current root.  The decoded
node loader `decodeNodeUnsafe` is external to `src/` and is passed in as a
parameter wherever traversal needs it. -/
structure TrieM where
  owner : Bytes
  codec : Nat
  db : CDB
  root : N

/-- `Trie.resolveHash(n, prefix)`: derive the CID (total, §4.3), read the
database, decode; a successfully decoded nil node yields
`MissingNodeError{owner, hash, path}` — any database miss has already
surfaced as the database's own error. -/
def resolveHash (decode : Bytes → Bytes → Except Nat N) (t : TrieM)
    (n : Bytes) (pfx : List Nat) : Except TrieErr N :=
  match cdbNode t.db (Cid.Keccak256ToCid t.codec n) with
  | .error e => .error e
  | .ok enc =>
    match decode n enc with
    | .error c => .error (.decodeErr c)
    | .ok .nilN => .error (.missingNode t.owner n pfx)
    | .ok node => .ok node

/-- `keybytesToHex`: expand a byte key into nibbles and append the
terminator 16. -/
def keybytesToHex (str : Bytes) : List Nat :=
  (str.flatMap fun b => [b / 16, b % 16]) ++ [16]

/-- `Trie.tryGet(origNode, key, pos)`, fuel-indexed (the Go recursion
descends resolved nodes; fuel bounds the resolution chain, and the
wrapper passes enough for any well-formed trie).  Returns
`(value, newnode, didResolve)`; Go's panics on invalid nodes map to the
`panicN` error. -/
def tryGet (decode : Bytes → Bytes → Except Nat N) (t : TrieM) :
    Nat → N → List Nat → Nat → Except TrieErr (Option Bytes × N × Bool)
  | 0, _, _, _ => .error .panicN
  | fuel + 1, origNode, key, pos =>
    match origNode with
    | .nilN => .ok (none, .nilN, false)
    | .value v => .ok (some v, .value v, false)
    | .short k val =>
      if key.length - pos < k.length ∨ k ≠ (key.drop pos).take k.length
      then .ok (none, .short k val, false)
      else
        match tryGet decode t fuel val key (pos + k.length) with
        | .error e => .error e
        | .ok (v, newnode, didResolve) =>
          .ok (v, if didResolve then .short k newnode else .short k val,
            didResolve)
    | .full cs =>
      match key.get? pos with
      | none => .error .panicN
      | some nib =>
        match cs.get? nib with
        | none => .error .panicN
        | some child =>
          match tryGet decode t fuel child key (pos + 1) with
          | .error e => .error e
          | .ok (v, newnode, didResolve) =>
            .ok (v, if didResolve then .full (cs.set nib newnode)
                else .full cs, didResolve)
    | .hash hn =>
      match resolveHash decode t hn (key.take pos) with
      | .error e => .error e
      | .ok child =>
        match tryGet decode t fuel child key pos with
        | .error e => .error e
        | .ok (v, newnode, _) => .ok (v, newnode, true)

/-- `Trie.TryGet(key)`: traverse from the root over the hex-expanded key;
on success with resolutions, the root is replaced by the resolved copy;
on error the value is nil and the root is unchanged. -/
def TryGet (decode : Bytes → Bytes → Except Nat N) (t : TrieM)
    (key : Bytes) (fuel : Nat) : Except TrieErr (Option Bytes) × N :=
  match tryGet decode t fuel t.root (keybytesToHex key) 0 with
  | .error e => (.error e, t.root)
  | .ok (v, newroot, didResolve) =>
    (.ok v, if didResolve then newroot else t.root)

instance {e a : Type} [DecidableEq e] [DecidableEq a] :
    DecidableEq (Except e a)
  | .error x, .error y =>
    if h : x = y then isTrue (by rw [h])
    else isFalse (by intro hc; cases hc; exact h rfl)
  | .error _, .ok _ => isFalse (by intro hc; cases hc)
  | .ok _, .error _ => isFalse (by intro hc; cases hc)
  | .ok x, .ok y =>
    if h : x = y then isTrue (by rw [h])
    else isFalse (by intro hc; cases hc; exact h rfl)

/-- C6: evaluation of the code at the failing input.  A trie whose root is
an unresolvable hash placeholder (clean cache absent, store returning an
empty blob) makes `TryGet` fail with the generic "not found" error that
`Database.Node` produced — not with `MissingNodeError{owner, hash, path}`
as `TryGet`'s own documentation and the spec state: `resolveHash`
propagates the database error before its `MissingNodeError` branch, which
is reachable only if decoding returns a nil node without error. -/
theorem tryget_unresolved_returns_notfound :
    (TryGet (fun _ _ => .ok .nilN)
        { owner := [9], codec := 0x96,
          db := { cleans := none, disk := fun _ => .ok [] },
          root := .hash [1] }
        [0] 10).1 = .error .notFound ∧
    (∀ o hsh pth, (TrieErr.notFound ≠ TrieErr.missingNode o hsh pth)) := by
  constructor
  · decide
  · intro o hsh pth hcontra
    cases hcontra

/-- The claim's absence condition, stated from the spec's words: the
traversal reaches a nil child, or diverges from a short node's prefix,
resolving successfully every hash placeholder it meets on the way (same
fuel discipline as `tryGet`). -/
def specAbsentF (decode : Bytes → Bytes → Except Nat N) (t : TrieM) :
    Nat → N → List Nat → Nat → Bool
  | 0, _, _, _ => false
  | fuel + 1, n, key, pos =>
    match n with
    | .nilN => true
    | .value _ => false
    | .short k val =>
      if key.length - pos < k.length ∨ k ≠ (key.drop pos).take k.length
      then true
      else specAbsentF decode t fuel val key (pos + k.length)
    | .full cs =>
      match key.get? pos with
      | none => false
      | some nib =>
        match cs.get? nib with
        | none => false
        | some child => specAbsentF decode t fuel child key (pos + 1)
    | .hash hn =>
      match resolveHash decode t hn (key.take pos) with
      | .error _ => false
      | .ok child => specAbsentF decode t fuel child key pos

theorem tryGet_absent (decode : Bytes → Bytes → Except Nat N) (t : TrieM) :
    ∀ fuel n key pos, specAbsentF decode t fuel n key pos = true →
      ∃ nn dr, tryGet decode t fuel n key pos = .ok (none, nn, dr) := by
  intro fuel
  induction fuel with
  | zero =>
    intro n key pos h
    cases h
  | succ fuel ih =>
    intro n key pos h
    cases n with
    | nilN => exact ⟨.nilN, false, rfl⟩
    | value v =>
      exact absurd h (by simp [specAbsentF])
    | short k val =>
      simp only [specAbsentF] at h
      simp only [tryGet]
      by_cases hc : key.length - pos < k.length
          ∨ k ≠ (key.drop pos).take k.length
      · rw [if_pos hc]
        exact ⟨.short k val, false, rfl⟩
      · rw [if_neg hc] at h
        obtain ⟨nn, dr, hrec⟩ := ih val key (pos + k.length) h
        rw [if_neg hc, hrec]
        exact ⟨if dr then .short k nn else .short k val, dr, rfl⟩
    | full cs =>
      simp only [specAbsentF] at h
      simp only [tryGet]
      cases hk : key.get? pos with
      | none =>
        simp only [hk] at h
        cases h
      | some nib =>
        simp only [hk] at h
        cases hcs : cs.get? nib with
        | none =>
          simp only [hcs] at h
          cases h
        | some child =>
          simp only [hcs] at h
          obtain ⟨nn, dr, hrec⟩ := ih child key (pos + 1) h
          simp only [hcs, hrec]
          exact ⟨if dr then .full (cs.set nib nn) else .full cs, dr, rfl⟩
    | hash hn =>
      simp only [specAbsentF] at h
      simp only [tryGet]
      cases hres : resolveHash decode t hn (key.take pos) with
      | error e =>
        simp only [hres] at h
        cases h
      | ok child =>
        simp only [hres] at h
        obtain ⟨nn, dr, hrec⟩ := ih child key pos h
        simp only [hres, hrec]
        exact ⟨nn, true, rfl⟩

/-- C10: for every key absent from the trie — the traversal reaches a nil
child or diverges from a short node's prefix without meeting an
unresolvable hash placeholder — `TryGet` returns a nil value together
with a nil error: absence is reported as a nil value, never as an
error. -/
theorem tryget_absent_nil_value_nil_error
    (decode : Bytes → Bytes → Except Nat N) (t : TrieM) (key : Bytes)
    (fuel : Nat)
    (h : specAbsentF decode t fuel t.root (keybytesToHex key) 0 = true) :
    (TryGet decode t key fuel).1 = .ok none := by
  obtain ⟨nn, dr, hrec⟩ := tryGet_absent decode t fuel t.root _ 0 h
  unfold TryGet
  rw [hrec]

/-- Witness for C10: a concrete short-node trie and a diverging key. -/
theorem tryget_absent_nil_value_nil_error_witness :
    (TryGet (fun _ _ => .ok .nilN)
        { owner := [9], codec := 0x96,
          db := { cleans := none, disk := fun _ => .ok [] },
          root := .short [0, 6] (.value [9]) }
        [5] 5).1 = .ok none :=
  tryget_absent_nil_value_nil_error (fun _ _ => .ok .nilN)
    { owner := [9], codec := 0x96,
      db := { cleans := none, disk := fun _ => .ok [] },
      root := .short [0, 6] (.value [9]) }
    [5] 5 (by decide)

/-- `StateTrie` (the secure-key wrapper): it owns an inner trie; the
ephemeral `hashKeyBuf` has no observable state. -/
structure StateTrieM where
  trie : TrieM

/-- `StateTrie.hashKey(key)`: the keccak256 digest of the key, computed
through the hasher's sponge (`sha.Write`/`sha.Read`); keccak itself is an
assumed external primitive, passed as a parameter. -/
def hashKey (keccak : Bytes → Bytes) (key : Bytes) : Bytes := keccak key

/-- `StateTrie.TryGet(key)`: forward to the inner trie at the hashed
key. -/
def stateTrieTryGet (decode : Bytes → Bytes → Except Nat N)
    (keccak : Bytes → Bytes) (t : StateTrieM) (key : Bytes) (fuel : Nat) :
    Except TrieErr (Option Bytes) × N :=
  TryGet decode t.trie (hashKey keccak key) fuel

/-- C8: the secure-key wrapper forwards `TryGet` to the underlying trie
with the keccak256 hash of the key in place of the key itself, so
`StateTrie.TryGet k` returns exactly the underlying `Trie.TryGet` of
`keccak256(k)`. -/
theorem statetrie_tryget_forwards (decode : Bytes → Bytes → Except Nat N)
    (keccak : Bytes → Bytes) (t : StateTrieM) (key : Bytes) (fuel : Nat) :
    stateTrieTryGet decode keccak t key fuel
      = TryGet decode t.trie (keccak key) fuel := rfl

end MPT

namespace Iter

open MPT

/-- Strict lexicographic order on nibble paths (`bytes.Compare` on the
hex-expanded keys; the terminator 16 sorts after every nibble, so a key
sorts after its proper extensions' shared prefix position). -/
def lexLt : List Nat → List Nat → Bool
  | [], [] => false
  | [], _ :: _ => true
  | _ :: _, [] => false
  | x :: xs, y :: ys =>
    if x < y then true else if y < x then false else lexLt xs ys

/-- `path` is a prefix of `key`. -/
def isPfx : List Nat → List Nat → Bool
  | [], _ => true
  | _ :: _, [] => false
  | x :: xs, y :: ys => x = y && isPfx xs ys

/-- Every key extending `path` sorts strictly before `start`. -/
def divergesBelow : List Nat → List Nat → Bool
  | _, [] => false
  | [], _ :: _ => false
  | p :: ps, s :: ss =>
    if p < s then true else if s < p then false else divergesBelow ps ss

mutual

/-- The leaf keys of an in-memory trie below `path`, in document order
(full-node children visited slot 0 through slot 16, the value slot last —
the order the node iterator walks them). -/
def leaves : N → List Nat → List (List Nat)
  | .nilN, _ => []
  | .hash _, _ => []
  | .value _, path => [path]
  | .short k val, path => leaves val (path ++ k)
  | .full cs, path => leavesIdx cs 0 path

def leavesIdx : List N → Nat → List Nat → List (List Nat)
  | [], _, _ => []
  | c :: cs, i, path => leaves c (path ++ [i]) ++ leavesIdx cs (i + 1) path

end

mutual

/-- Modelled from the spec: the node-iterator sources are not under
`src/`.  Per §4.1 the iterator lazily walks the trie in ascending key
order from a seek target, skipping any subtree that lies wholly before
it; this models the sequence of leaf keys it yields from `start`. -/
def iterLeaves : N → List Nat → List Nat → List (List Nat)
  | .nilN, _, _ => []
  | .hash _, _, _ => []
  | .value _, path, start => if lexLt path start then [] else [path]
  | .short k val, path, start =>
    if divergesBelow (path ++ k) start then []
    else iterLeaves val (path ++ k) start
  | .full cs, path, start => iterLeavesIdx cs 0 path start

def iterLeavesIdx : List N → Nat → List Nat → List Nat → List (List Nat)
  | [], _, _, _ => []
  | c :: cs, i, path, start =>
    (if divergesBelow (path ++ [i]) start then []
     else iterLeaves c (path ++ [i]) start)
      ++ iterLeavesIdx cs (i + 1) path start

end

/-- `isPfx` is reflexive. -/
theorem isPfx_refl (a : List Nat) : isPfx a a = true := by
  induction a with
  | nil => rfl
  | cons x xs ih => simp [isPfx, ih]

/-- A prefix of a longer prefix is a prefix. -/
theorem isPfx_append_left (a b k : List Nat) (h : isPfx (a ++ b) k = true) :
    isPfx a k = true := by
  induction a generalizing k with
  | nil => rfl
  | cons x xs ih =>
    cases k with
    | nil => simp [isPfx] at h
    | cons y ys =>
      simp only [List.cons_append, isPfx, Bool.and_eq_true, decide_eq_true_eq] at h ⊢
      exact ⟨h.1, ih ys h.2⟩

/-- If every extension of `q` sorts before `start`, then any key with
prefix `q` sorts before `start`. -/
theorem divergesBelow_lexLt (q : List Nat) :
    ∀ start k, divergesBelow q start = true → isPfx q k = true →
      lexLt k start = true := by
  induction q with
  | nil =>
    intro start k hd _
    cases start with
    | nil => simp [divergesBelow] at hd
    | cons s ss => simp [divergesBelow] at hd
  | cons p ps ih =>
    intro start k hd hp
    cases start with
    | nil => simp [divergesBelow] at hd
    | cons s ss =>
      cases k with
      | nil => simp [isPfx] at hp
      | cons y ys =>
        simp only [isPfx, Bool.and_eq_true, decide_eq_true_eq] at hp
        obtain ⟨rfl, hp2⟩ := hp
        simp only [divergesBelow] at hd
        by_cases h1 : p < s
        · simp [lexLt, h1]
        · rw [if_neg h1] at hd
          by_cases h2 : s < p
          · rw [if_pos h2] at hd; cases hd
          · rw [if_neg h2] at hd
            have hys : lexLt ys ss = true := ih ss ys hd hp2
            simp [lexLt, h1, h2, hys]

/-- Keys under sibling child slots `i < j` of the same full node compare
strictly in slot order. -/
theorem lexLt_of_pfx_lt (path : List Nat) :
    ∀ i j a b, i < j → isPfx (path ++ [i]) a = true →
      isPfx (path ++ [j]) b = true → lexLt a b = true := by
  induction path with
  | nil =>
    intro i j a b hij ha hb
    cases a with
    | nil => simp [isPfx] at ha
    | cons y ys =>
      cases b with
      | nil => simp [isPfx] at hb
      | cons z zs =>
        simp only [List.nil_append, isPfx, Bool.and_eq_true, decide_eq_true_eq] at ha hb
        obtain ⟨rfl, _⟩ := ha
        obtain ⟨rfl, _⟩ := hb
        simp [lexLt, hij]
  | cons p ps ih =>
    intro i j a b hij ha hb
    cases a with
    | nil => simp [isPfx] at ha
    | cons y ys =>
      cases b with
      | nil => simp [isPfx] at hb
      | cons z zs =>
        simp only [List.cons_append, isPfx, Bool.and_eq_true, decide_eq_true_eq] at ha hb
        obtain ⟨rfl, ha2⟩ := ha
        obtain ⟨rfl, hb2⟩ := hb
        have hr : lexLt ys zs = true := ih i j ys zs hij ha2 hb2
        simp [lexLt, hr]

mutual

/-- Every leaf key collected below `path` extends `path`. -/
theorem leaves_pfx (n : N) (path : List Nat) :
    ∀ k, k ∈ leaves n path → isPfx path k = true := by
  cases n with
  | nilN => intro k hk; simp [leaves] at hk
  | hash b => intro k hk; simp [leaves] at hk
  | value v =>
    intro k hk
    simp only [leaves, List.mem_singleton] at hk
    subst hk
    exact isPfx_refl k
  | short kk val =>
    intro k hk
    simp only [leaves] at hk
    exact isPfx_append_left path kk k (leaves_pfx val (path ++ kk) k hk)
  | full cs =>
    intro k hk
    simp only [leaves] at hk
    exact leavesIdx_pfx cs 0 path k hk

/-- Every leaf key collected from child slots `i, i+1, …` extends `path`. -/
theorem leavesIdx_pfx (cs : List N) (i : Nat) (path : List Nat) :
    ∀ k, k ∈ leavesIdx cs i path → isPfx path k = true := by
  cases cs with
  | nil => intro k hk; simp [leavesIdx] at hk
  | cons c cs =>
    intro k hk
    simp only [leavesIdx, List.mem_append] at hk
    cases hk with
    | inl h =>
      exact isPfx_append_left path [i] k (leaves_pfx c (path ++ [i]) k h)
    | inr h => exact leavesIdx_pfx cs (i + 1) path k h

end

/-- Every leaf key collected from child slots `j, j+1, …` extends
`path ++ [idx]` for some slot `idx ≥ j`. -/
theorem leavesIdx_pfx_ge (cs : List N) :
    ∀ j path k, k ∈ leavesIdx cs j path →
      ∃ idx, j ≤ idx ∧ isPfx (path ++ [idx]) k = true := by
  induction cs with
  | nil => intro j path k hk; simp [leavesIdx] at hk
  | cons c cs ih =>
    intro j path k hk
    simp only [leavesIdx, List.mem_append] at hk
    cases hk with
    | inl h => exact ⟨j, Nat.le_refl j, leaves_pfx c (path ++ [j]) k h⟩
    | inr h =>
      obtain ⟨idx, hle, hp⟩ := ih (j + 1) path k h
      exact ⟨idx, Nat.le_of_succ_le hle, hp⟩

mutual

/-- The document-order leaf keys of a subtree are strictly ascending in
the hex-key order. -/
theorem leaves_sorted (n : N) (path : List Nat) :
    List.Pairwise (fun a b => lexLt a b = true) (leaves n path) := by
  cases n with
  | nilN => simp [leaves]
  | hash b => simp [leaves]
  | value v => simp [leaves]
  | short kk val =>
    simp only [leaves]
    exact leaves_sorted val (path ++ kk)
  | full cs =>
    simp only [leaves]
    exact leavesIdx_sorted cs 0 path

/-- Leaf keys collected across ascending child slots are strictly
ascending in the hex-key order. -/
theorem leavesIdx_sorted (cs : List N) (i : Nat) (path : List Nat) :
    List.Pairwise (fun a b => lexLt a b = true) (leavesIdx cs i path) := by
  cases cs with
  | nil => simp [leavesIdx]
  | cons c cs =>
    simp only [leavesIdx]
    rw [List.pairwise_append]
    refine ⟨leaves_sorted c (path ++ [i]), leavesIdx_sorted cs (i + 1) path, ?_⟩
    intro a ha b hb
    obtain ⟨idx, hle, hpfx⟩ := leavesIdx_pfx_ge cs (i + 1) path b hb
    exact lexLt_of_pfx_lt path i idx a b
      (Nat.lt_of_lt_of_le (Nat.lt_succ_self i) hle)
      (leaves_pfx c (path ++ [i]) a ha) hpfx

end

mutual

/-- The seek-pruned iteration yields exactly the document-order leaf keys
that do not sort strictly before the start key. -/
theorem iterLeaves_eq (n : N) (path start : List Nat) :
    iterLeaves n path start
      = (leaves n path).filter (fun k => ! lexLt k start) := by
  cases n with
  | nilN => simp [iterLeaves, leaves]
  | hash b => simp [iterLeaves, leaves]
  | value v =>
    by_cases h : lexLt path start = true <;>
      simp [iterLeaves, leaves, List.filter, h]
  | short kk val =>
    simp only [iterLeaves, leaves]
    by_cases h : divergesBelow (path ++ kk) start = true
    · rw [if_pos h]
      symm
      rw [List.filter_eq_nil_iff]
      intro a ha
      have hlt := divergesBelow_lexLt (path ++ kk) start a h
        (leaves_pfx val (path ++ kk) a ha)
      simp [hlt]
    · rw [if_neg h]
      exact iterLeaves_eq val (path ++ kk) start
  | full cs =>
    simp only [iterLeaves, leaves]
    exact iterLeavesIdx_eq cs 0 path start

/-- Slot-indexed version of `iterLeaves_eq`. -/
theorem iterLeavesIdx_eq (cs : List N) (i : Nat) (path start : List Nat) :
    iterLeavesIdx cs i path start
      = (leavesIdx cs i path).filter (fun k => ! lexLt k start) := by
  cases cs with
  | nil => simp [iterLeavesIdx, leavesIdx]
  | cons c cs =>
    simp only [iterLeavesIdx, leavesIdx, List.filter_append]
    congr 1
    · by_cases h : divergesBelow (path ++ [i]) start = true
      · rw [if_pos h]
        symm
        rw [List.filter_eq_nil_iff]
        intro a ha
        have hlt := divergesBelow_lexLt (path ++ [i]) start a h
          (leaves_pfx c (path ++ [i]) a ha)
        simp [hlt]
      · rw [if_neg h]
        exact iterLeaves_eq c (path ++ [i]) start
    · exact iterLeavesIdx_eq cs (i + 1) path start

end

/-- C7: iterating leaves from the node iterator seeked to `start` yields
exactly the keys of the trie that are ≥ `start` (those not sorting
strictly before it), and the yielded sequence is strictly ascending in
the hex-key order; in particular seeking to an existing key yields that
key first, seeking between two keys resumes at the next key ≥ the
target, and seeking past the maximum key yields the empty sequence. -/
theorem nodeIterator_seek_order (n : N) (start : List Nat) :
    iterLeaves n [] start = (leaves n []).filter (fun k => ! lexLt k start)
      ∧ List.Pairwise (fun a b => lexLt a b = true) (iterLeaves n [] start) := by
  refine ⟨iterLeaves_eq n [] start, ?_⟩
  rw [iterLeaves_eq n [] start]
  exact List.Pairwise.sublist (List.filter_sublist _) (leaves_sorted n [])

end Iter

end IpldEthStatedb
